import Mathlib

/-!
Verification of the bitmap-to-vector font compiler in
`src/tools/generate_fonts.py` (repository `Hexze/mctext`).

The Python source is shallowly embedded: pygame masks become a `Mask`
structure over integer coordinates, floats become rationals (all the
geometry here is exact: traced corners are integers, offsets and scales
are rational), Python dicts become association lists, and the two
unbounded loops of the source (the Moore contour tracer and the
flood-fill used for region separation) are given explicit fuel large
enough to cover every terminating run of the original code.
-/

/-- 2D integer point (a pixel coordinate or a pixel-corner coordinate). -/
abbrev Pt := ℤ × ℤ

/-- The facing direction of the contour tracer (`facing` in `trace_outline`). -/
inductive Dir
  | up
  | down
  | left
  | right
deriving DecidableEq, Repr

/-- A pygame-style bitmap mask: a `w × h` grid of boolean ink pixels with
origin at the top left.  `ink` is only meaningful on `0 ≤ x < w`,
`0 ≤ y < h`; all accesses in the embedded code go through `Mask.get`,
which performs the same bounds check as the `get` helper inside
`trace_outline` (out-of-range pixels read as background). -/
structure Mask where
  w : ℕ
  h : ℕ
  ink : ℤ → ℤ → Bool

/-- Bounds-checked pixel read: `0 <= x < w and 0 <= y < h and mask.get_at((x, y))`. -/
def Mask.get (m : Mask) (x y : ℤ) : Bool :=
  decide (0 ≤ x ∧ x < (m.w : ℤ) ∧ 0 ≤ y ∧ y < (m.h : ℤ)) && m.ink x y

/-- A mask whose ink pixels are exactly the points of the list `pts`
(used for the single-region masks produced by region separation). -/
def Mask.ofPoints (w h : ℕ) (pts : List Pt) : Mask :=
  { w := w, h := h, ink := fun x y => decide ((x, y) ∈ pts) }

/-- Least `i < n` with `p i = true` (the embedded `for`-loop search). -/
def findFirst (p : ℕ → Bool) : ℕ → Option ℕ
  | 0 => none
  | n + 1 =>
    match findFirst p n with
    | some i => some i
    | none => if p n then some n else none

/-- Whether row `y` of the mask contains an ink pixel. -/
def rowHasInk (m : Mask) (y : ℕ) : Bool :=
  (findFirst (fun x => m.get (x : ℤ) (y : ℤ)) m.w).isSome

/-- The start pixel of `trace_outline`: the first ink pixel in row-major
scan order (`for y in range(h): for x in range(w): if mask.get_at(...)`). -/
def findStart (m : Mask) : Option Pt :=
  match findFirst (rowHasInk m) m.h with
  | none => none
  | some y =>
    match findFirst (fun x => m.get (x : ℤ) (y : ℤ)) m.w with
    | none => none
    | some x => some ((x : ℤ), (y : ℤ))

/-- One iteration of the `while True` body of `trace_outline`: inspect the
2×2 pixel neighborhood around the current corner and move, mirroring the
`if`/`elif` chain of the source exactly (including the implicit
"do nothing" fall-through when no branch matches). -/
def traceStep (m : Mask) (pos : Pt) (facing : Dir) : Pt × Dir :=
  let x := pos.1
  let y := pos.2
  let tl := m.get (x - 1) (y - 1)
  let tr := m.get x (y - 1)
  let bl := m.get (x - 1) y
  let br := m.get x y
  if tl = true ∧ br = true ∧ tr = false ∧ bl = false then
    if facing = Dir.up then ((x - 1, y), Dir.left) else ((x + 1, y), Dir.right)
  else if tr = true ∧ bl = true ∧ tl = false ∧ br = false then
    if facing = Dir.right then ((x, y - 1), Dir.up) else ((x, y + 1), Dir.down)
  else if tl = true ∧ bl = false then ((x - 1, y), Dir.left)
  else if tr = true ∧ tl = false then ((x, y - 1), Dir.up)
  else if br = true ∧ tr = false then ((x + 1, y), Dir.right)
  else if bl = true ∧ br = false then ((x, y + 1), Dir.down)
  else (pos, facing)

/-- The tracer loop: append the new position after each step, stop when it
returns to the start corner.  `fuel` bounds the number of iterations; the
canonical fuel `traceFuel` (below) is large enough for every run of the
source code that terminates. -/
def traceAux (m : Mask) (start : Pt) : ℕ → Pt → Dir → List Pt
  | 0, _, _ => []
  | fuel + 1, pos, facing =>
    let s := traceStep m pos facing
    if s.1 = start then [s.1] else s.1 :: traceAux m start fuel s.1 s.2

/-- Canonical fuel for `trace_outline`: strictly more than the number of
(corner, facing) states, 4·(w+1)·(h+1). -/
def traceFuel (m : Mask) : ℕ :=
  4 * (m.w + 1) * (m.h + 1) + 4

/-- `trace_outline`: the Moore-neighborhood boundary trace of one region
mask.  Returns the closed corner sequence `[start, ..., start]`.  The
source never calls this on an empty mask (it would raise on `start =
None`); the embedded version returns `[]` in that dead branch. -/
def trace_outline (m : Mask) : List Pt :=
  match findStart m with
  | none => []
  | some st => st :: traceAux m st (traceFuel m) st Dir.right

/-- The collinearity tolerance `1e-12 = 1/10^12` of `collinear`, written
as an explicit normalized rational so that kernel evaluation can unfold
it (`tol_eq_div` below certifies the value). -/
def tol : ℚ :=
  ⟨1, 1000000000000, by norm_num, Nat.coprime_one_left _⟩

/-- `collinear(p1, p2, p3)`: cross-product magnitude below the `1e-12`
tolerance.  The inputs are always integer corner points and float
arithmetic on them is exact, so the cross product is computed in `ℤ` and
compared as a rational. -/
def collinear (p1 p2 p3 : Pt) : Bool :=
  decide
    (|(((p2.1 - p1.1) * (p3.2 - p1.2) - (p3.1 - p1.1) * (p2.2 - p1.2) : ℤ) : ℚ)| < tol)

/-- The simplification loop of `vectorize`: walk `points[1:]` with state
`(prev, curr)`; emit `curr` (a `lineTo`) only when `prev, curr, p` are not
collinear, where `prev` is the last emitted point.  Returns the emitted
(untransformed) points in order. -/
def keptPoints (prev : Pt) (curr : Option Pt) : List Pt → List Pt
  | [] => []
  | p :: rest =>
    match curr with
    | none => keptPoints prev (some p) rest
    | some c =>
      if collinear prev c p then keptPoints prev (some p) rest
      else c :: keptPoints c (some p) rest

/-- The point transform closure inside `vectorize`: translate by the
offset, apply the italic shear (to the already-translated coordinates, as
the source does), scale, and flip the Y axis.  `hq` is the mask height. -/
def transformPt (hq scale ox oy : ℚ) (italic : Bool) (x y : ℚ) : ℚ × ℚ :=
  let x := x + ox
  let y := y + oy
  let x := if italic then x + (hq - y) / 4 else x
  (x * scale, (hq - y) * scale)

/-- One emitted contour: the `moveTo` point followed by the emitted
`lineTo` points, each transformed (`pen.moveTo(transform(*points[0]))`,
`pen.lineTo(transform(*curr))`, then `closePath`). -/
def contourOf (tf : Pt → ℚ × ℚ) (points : List Pt) : List (ℚ × ℚ) :=
  match points with
  | [] => []
  | p0 :: rest => tf p0 :: (keptPoints p0 none rest).map tf

/-- The 4-neighbors pushed by the flood-fill in `separate_regions`
(`queue.extend([(px-1,py),(px+1,py),(px,py-1),(px,py+1)])`); `queue.pop()`
takes the most recently pushed element, so the head of this list is the
pixel the source visits first. -/
def nbrs (p : Pt) : List Pt :=
  [(p.1, p.2 + 1), (p.1, p.2 - 1), (p.1 + 1, p.2), (p.1 - 1, p.2)]

/-- The depth-first flood fill of `separate_regions`: pop a pixel, skip it
if already checked or not a `P`-pixel (out of bounds or background),
otherwise mark it and push its 4-neighbors.  Returns the final `checked`
list (the discovered region).  `fuel` bounds the iterations; `floodFuel`
covers every run of the source. -/
def flood (P : Pt → Bool) : ℕ → List Pt → List Pt → List Pt
  | 0, _, checked => checked
  | _ + 1, [], checked => checked
  | fuel + 1, p :: queue, checked =>
    if p ∈ checked then flood P fuel queue checked
    else if P p then flood P fuel (nbrs p ++ queue) (p :: checked)
    else flood P fuel queue checked

/-- Flood fill from a single seed with an empty `checked` set. -/
def floodFrom (P : Pt → Bool) (fuel : ℕ) (p : Pt) : List Pt :=
  flood P fuel [p] []

/-- Fuel for a flood fill over a `w × h` grid: at most `w*h` pixels are
ever marked and each marked pixel pushes 4 neighbors, so `5*w*h + 5`
iterations always reach the empty queue. -/
def floodFuel (w h : ℕ) : ℕ :=
  5 * (w * h) + 5

/-- Does `p` belong to one of the regions found so far? -/
def memAny (p : Pt) (rs : List (List Pt)) : Bool :=
  rs.any (fun r => decide (p ∈ r))

/-- The coordinates `(0, y) .. (w-1, y)` of one grid row, left to right. -/
def rowCoords (y : ℤ) : ℕ → List Pt
  | 0 => []
  | ww + 1 => rowCoords y ww ++ [((ww : ℤ), y)]

/-- Row-major list of the grid coordinates (`for y in range(h): for x in
range(w)`): rows `0 .. h-1` in order, each row left to right. -/
def rowMajor (w : ℕ) : ℕ → List Pt
  | 0 => []
  | hh + 1 => rowMajor w hh ++ rowCoords (hh : ℤ) w

/-- Scan the pixels in `order`; each unvisited `P`-pixel seeds a flood
fill whose discovered region is appended.  A pixel counts as visited when
it lies in a previously found region: regions of distinct seeds are
disjoint, so this matches the shared `checked` set of the source. -/
def componentsAux (P : Pt → Bool) (fuel : ℕ) : List Pt → List (List Pt) → List (List Pt)
  | [], acc => acc
  | p :: rest, acc =>
    if P p && !memAny p acc then componentsAux P fuel rest (acc ++ [floodFrom P fuel p])
    else componentsAux P fuel rest acc

/-- Models the `pygame.mask.Mask.connected_components()` library call:
the 4-connected components of the ink pixels, listed in row-major order
of their first pixel, each as its point list. -/
def components (m : Mask) : List (List Pt) :=
  componentsAux (fun p => m.get p.1 p.2) (floodFuel m.w m.h) (rowMajor m.w m.h) []

/-- pygame-style bounding rectangle (y grows downward, so `top` is the
minimum y and `bottom`/`right` are exclusive). -/
structure Rect where
  left : ℤ
  top : ℤ
  right : ℤ
  bottom : ℤ

/-- Bounding rectangle of a nonempty point list. -/
def rectOf (pts : List Pt) : Rect :=
  match pts with
  | [] => ⟨0, 0, 0, 0⟩
  | p :: rest =>
    { left := rest.foldl (fun a q => min a q.1) p.1
      top := rest.foldl (fun a q => min a q.2) p.2
      right := rest.foldl (fun a q => max a q.1) p.1 + 1
      bottom := rest.foldl (fun a q => max a q.2) p.2 + 1 }

/-- Models the `mask.get_bounding_rects()` library call: one bounding
rectangle per connected region of set pixels. -/
def get_bounding_rects (m : Mask) : List Rect :=
  (components m).map rectOf

/-- `max` of a list of integers (Python `max(...)` over a nonempty
sequence; the default is never reached in the embedded call sites). -/
def maxList : List ℤ → ℤ
  | [] => 0
  | a :: r => r.foldl max a

/-- `min` of a list of integers. -/
def minList : List ℤ → ℤ
  | [] => 0
  | a :: r => r.foldl min a

/-- The background predicate of the hole search: a pixel of the
`(w+2) × (h+2)` grid obtained by padding the mask with one pixel of
background on every side and inverting it (`inv.draw(mask, (1, 1));
inv.invert()`). -/
def invPadded (m : Mask) (p : Pt) : Bool :=
  decide (0 ≤ p.1 ∧ p.1 < (m.w : ℤ) + 2 ∧ 0 ≤ p.2 ∧ p.2 < (m.h : ℤ) + 2) &&
    !(m.get (p.1 - 1) (p.2 - 1))

/-- Un-pad a hole region: shift by `(-1, -1)` and clip to the `w × h`
grid (`fixed.draw(region, (-1, -1))`). -/
def unpad (m : Mask) (r : List Pt) : List Pt :=
  (r.map (fun p => (p.1 - 1, p.2 - 1))).filter
    (fun p => decide (0 ≤ p.1 ∧ p.1 < (m.w : ℤ) ∧ 0 ≤ p.2 ∧ p.2 < (m.h : ℤ)))

/-- `separate_regions`: the filled 4-connected components of the mask,
and the hole components — background components of the padded-and-inverted
mask that do not contain the padded origin `(0, 0)` (that one is the
unbounded exterior and is discarded), un-padded back to mask
coordinates. -/
def separate_regions (m : Mask) : List Mask × List Mask :=
  let filled := (components m).map (Mask.ofPoints m.w m.h)
  let comps := componentsAux (invPadded m) (floodFuel (m.w + 2) (m.h + 2))
    (rowMajor (m.w + 2) (m.h + 2)) []
  let holes := (comps.filter (fun r => decide (((0 : ℤ), (0 : ℤ)) ∉ r))).map
    (fun r => Mask.ofPoints m.w m.h (unpad m r))
  (filled, holes)

/-- `vectorize`: separate the mask into filled and hole regions, trace
each region (hole traces are reversed to flip the winding), simplify and
transform the contours, and return them together with the bounding extent
`(max(r.right), max(r.top))` over the mask's bounding rectangles.  An
inkless mask yields `(none, (0, 0))`. -/
def vectorize (m : Mask) (scale : ℚ) (offset : ℚ × ℚ) (italic : Bool) :
    Option (List (List (ℚ × ℚ))) × (ℤ × ℤ) :=
  let tf : Pt → ℚ × ℚ := fun p =>
    transformPt (m.h : ℚ) scale offset.1 offset.2 italic (p.1 : ℚ) (p.2 : ℚ)
  let fh := separate_regions m
  if fh.1.isEmpty then (none, (0, 0))
  else
    let rects := get_bounding_rects m
    let size := (maxList (rects.map Rect.right), maxList (rects.map Rect.top))
    let cs := fh.1.map (fun r => contourOf tf (trace_outline r)) ++
      fh.2.map (fun r => contourOf tf (List.reverse (trace_outline r)))
    (some cs, size)

/-- Does the mask contain an ink pixel? -/
def hasInk (m : Mask) : Bool :=
  (rowMajor m.w m.h).any (fun p => m.get p.1 p.2)

/-- Decidable 4-connectivity of the ink pixels: from every ink pixel the
flood-fill closure covers every ink pixel.  The flood closure of a pixel
is contained in its 4-connected component and, with `floodFuel` fuel,
reaches all of it, so this coincides with the standard graph notion. -/
def Connected4 (m : Mask) : Bool :=
  (rowMajor m.w m.h).all fun p =>
    !(m.get p.1 p.2) ||
      (rowMajor m.w m.h).all fun q =>
        !(m.get q.1 q.2) ||
          decide (q ∈ floodFrom (fun r => m.get r.1 r.2) (floodFuel m.w m.h) p)

/-- `FONT_EM = 1200`. -/
def FONT_EM : ℚ := 1200

/-- `PIXEL_SCALE = FONT_EM / 12`. -/
def PIXEL_SCALE : ℚ := FONT_EM / 12

/-- The four style variants (the keys of `FontBuilder.fonts`). -/
inductive Style
  | Regular
  | Bold
  | Italic
  | BoldItalic
deriving DecidableEq, Repr

/-- One entry of a per-style glyph dict: `{"width": ..., "path": ...}`
for space entries (no `"height"` key) and
`{"width": ..., "height": ..., "path": ...}` for glyph entries. -/
structure GlyphData where
  width : ℚ
  height : Option ℚ
  path : Option (List (List (ℚ × ℚ)))

/-- The glyph registry: the shared `seen` set and the four per-style
character dicts (association lists in insertion order). -/
structure FontBuilder where
  seen : List String
  fonts : Style → List (String × GlyphData)

/-- `FontBuilder.__init__`: empty `seen` set, four empty style dicts. -/
def FontBuilder.init : FontBuilder :=
  { seen := [], fonts := fun _ => [] }

/-- `FontBuilder.add_space`: first-writer-wins registration of a
width-only entry; Regular/Italic get `width * PIXEL_SCALE`,
Bold/Bold Italic get `(width + 1) * PIXEL_SCALE`, no outline. -/
def add_space (b : FontBuilder) (char : String) (width : ℚ) : FontBuilder :=
  if char ∈ b.seen then b
  else
    { seen := char :: b.seen
      fonts := fun s =>
        b.fonts s ++ [(char,
          { width := (match s with
              | Style.Regular => width
              | Style.Italic => width
              | Style.Bold => width + 1
              | Style.BoldItalic => width + 1) * PIXEL_SCALE
            height := none
            path := none })] }

/-- The Bold mask: `bold.draw(mask, (0, 0)); bold.draw(mask, (1, 0))` on a
`(w+1) × h` canvas — pixel `(x, y)` is ink iff `mask(x, y)` or
`mask(x-1, y)` is. -/
def boldOf (m : Mask) : Mask :=
  { w := m.w + 1, h := m.h, ink := fun x y => m.get x y || m.get (x - 1) y }

/-- `FontBuilder.add_glyph`: first-writer-wins registration of a glyph in
all four styles at once.  For each style the appropriate mask (plain or
emboldened) and offset (plain or italic) are vectorized; the stored width
is `(gw + h/height) * scale` with `scale = height/h * PIXEL_SCALE`. -/
def add_glyph (b : FontBuilder) (char : String) (mask : Mask) (height ascent : ℕ) :
    FontBuilder :=
  if char ∈ b.seen then b
  else
    let h := mask.h
    let scale : ℚ := (height : ℚ) / (h : ℚ) * PIXEL_SCALE
    let add_width : ℚ := (h : ℚ) / (height : ℚ)
    let bold := boldOf mask
    let offset : ℚ × ℚ := (0, ((height : ℚ) - (ascent : ℚ)) / (height : ℚ) * (h : ℚ))
    let italic_offset : ℚ × ℚ := (-6 / (height : ℚ), offset.2)
    let entry : Mask → ℚ × ℚ → Bool → GlyphData := fun m off it =>
      let r := vectorize m scale off it
      { width := ((r.2.1 : ℚ) + add_width) * scale
        height := some ((r.2.2 : ℚ) * scale)
        path := r.1 }
    { seen := char :: b.seen
      fonts := fun s =>
        b.fonts s ++ [(char,
          match s with
          | Style.Regular => entry mask offset false
          | Style.Italic => entry mask italic_offset true
          | Style.Bold => entry bold offset false
          | Style.BoldItalic => entry bold italic_offset true)] }

/-- Python dict assignment on an association list: overwrite in place if
the key is present, append otherwise. -/
def updateAssoc {α : Type} (l : List (String × α)) (k : String) (v : α) :
    List (String × α) :=
  match l with
  | [] => [(k, v)]
  | (k', v') :: rest => if k' = k then (k, v) :: rest else (k', v') :: updateAssoc rest k v

/-- Uppercase hexadecimal digit. -/
def hexChar (n : ℕ) : Char :=
  if n < 10 then Char.ofNat (48 + n) else Char.ofNat (55 + n)

/-- The 8 hexadecimal nibbles of `n < 2^32`, most significant first. -/
def hex8list (n : ℕ) : List Char :=
  [hexChar (n / 16 ^ 7 % 16), hexChar (n / 16 ^ 6 % 16), hexChar (n / 16 ^ 5 % 16),
   hexChar (n / 16 ^ 4 % 16), hexChar (n / 16 ^ 3 % 16), hexChar (n / 16 ^ 2 % 16),
   hexChar (n / 16 % 16), hexChar (n % 16)]

/-- Python `f"{n:04X}"`: hexadecimal padded to at least 4 digits. -/
def uniHex (n : ℕ) : String :=
  let l := hex8list n
  String.mk ((l.take 4).dropWhile (fun c => c = '0') ++ l.drop 4)

/-- `ord(char)` for the 1-character strings that reach it in the source. -/
def ordOf (s : String) : ℕ :=
  match s.data with
  | [c] => c.toNat
  | _ => 0

/-- `aglfn.get(char, f"uni{ord(char):04X}")`. -/
def glyphNameOf (aglfn : String → Option String) (char : String) : String :=
  (aglfn char).getD ("uni" ++ uniHex (ordOf char))

/-- The table contents assembled by `build_ttf` (binary serialization by
fontTools is out of scope): the glyph order, the character map, and the
advance-width and outline tables.  An outline value `[]` is the `empty`
glyph. -/
structure TtfRecord where
  order : List String
  cmap : List (ℕ × String)
  widths : List (String × ℚ)
  paths : List (String × List (List (ℚ × ℚ)))

/-- The state of `build_ttf` before its loop: order `[".notdef", ".null"]`,
both reserved glyphs with width 0 and the empty outline. -/
def build_ttf_init : TtfRecord :=
  { order := [".notdef", ".null"]
    cmap := []
    widths := [(".notdef", 0), (".null", 0)]
    paths := [(".notdef", []), (".null", [])] }

/-- One iteration of the `for char, data in glyphs.items()` loop of
`build_ttf`.  A reserved character keeps its name and is not re-appended
to the order or the cmap, but its width and path entries are assigned
(overwriting the zero/empty defaults); any other character is appended
under its AGLFN or `uniXXXX` name.  `data["path"] if data["path"] else
empty` maps an absent outline to the empty glyph. -/
def build_ttf_step (aglfn : String → Option String) (r : TtfRecord)
    (e : String × GlyphData) : TtfRecord :=
  let char := e.1
  let data := e.2
  if char = ".notdef" ∨ char = ".null" then
    { r with
      widths := updateAssoc r.widths char data.width
      paths := updateAssoc r.paths char (data.path.getD []) }
  else
    let gname := glyphNameOf aglfn char
    { order := r.order ++ [gname]
      cmap := r.cmap ++ [(ordOf char, gname)]
      widths := updateAssoc r.widths gname data.width
      paths := updateAssoc r.paths gname (data.path.getD []) }

/-- The record-building part of `build_ttf`, folded over one style's
glyph dict in insertion order. -/
def build_ttf (aglfn : String → Option String) (glyphs : List (String × GlyphData)) :
    TtfRecord :=
  glyphs.foldl (build_ttf_step aglfn) build_ttf_init

/-- The `space` provider branch of `process_modern_font`: register every
advance entry, with no code-point filtering. -/
def processSpaceProvider (b : FontBuilder) (advances : List (String × ℚ)) :
    FontBuilder :=
  advances.foldl (fun b e => add_space b e.1 e.2) b

/-- The per-cell registration of the `bitmap` provider branch: each grid
cell whose character is not `"\0"` is registered from its cropped mask,
with no code-point filtering.  (Image decoding and cropping are glue; a
cell is modelled as its character together with its cropped mask.) -/
def processBitmapProvider (b : FontBuilder) (cells : List (String × Mask))
    (height ascent : ℕ) : FontBuilder :=
  cells.foldl
    (fun b e => if e.1 = String.mk [Char.ofNat 0] then b
      else add_glyph b e.1 e.2 height ascent) b

/-- `chr(cp)` (the unihex glyph dict is keyed by `chr(int(codepoint, 16))`). -/
def strOfCp (cp : ℕ) : String :=
  String.mk [Char.ofNat cp]

/-- `unihex_to_mask`: a `width × 16` mask whose row `y` is the bit pattern
`bits` of `rows[y] = (w, bits)`, bit `w - 1 - x` giving pixel `x`. -/
def unihex_to_mask (width : ℕ) (rows : List (ℕ × ℕ)) : Mask :=
  { w := width
    h := 16
    ink := fun x y =>
      if 0 ≤ x ∧ 0 ≤ y then
        let row := rows.getD y.toNat (0, 0)
        decide (x.toNat < row.1) && decide (row.2 / 2 ^ (row.1 - 1 - x.toNat) % 2 = 1)
      else false }

/-- The `unihex` provider branch of `process_modern_font`: drop every
glyph whose code point exceeds `0xFFFF`
(`{c: v for c, v in glyphs.items() if ord(c) <= 0xFFFF}`), then register
the rest at height 8, ascent 7.  A glyph is `(codepoint, width, rows)`. -/
def processUnihexProvider (b : FontBuilder) (glyphs : List (ℕ × ℕ × List (ℕ × ℕ))) :
    FontBuilder :=
  let filtered := glyphs.filter (fun g => decide (g.1 ≤ 0xFFFF))
  filtered.foldl
    (fun b g => add_glyph b (strOfCp g.1) (unihex_to_mask g.2.1 g.2.2) 8 7) b

/-- Twice the signed area of a closed polygon (shoelace formula); its sign
is the winding direction of the contour. -/
def shoelaceAux (p0 : ℚ × ℚ) : List (ℚ × ℚ) → ℚ
  | [] => 0
  | [p] => p.1 * p0.2 - p0.1 * p.2
  | p :: q :: rest => (p.1 * q.2 - q.1 * p.2) + shoelaceAux p0 (q :: rest)

/-- Twice the signed area of the closed polygon through the listed points. -/
def shoelace2 : List (ℚ × ℚ) → ℚ
  | [] => 0
  | p0 :: rest => shoelaceAux p0 (p0 :: rest)

/-- Modelled from the spec's words (the refinement target for claim C2):
the italic shear `x += (maskHeight - y) / 4` applied to the *untranslated*
`y`, followed by the final point
`((x + offsetX) * scale, (maskHeight - (y + offsetY)) * scale)`. -/
def specTransformPt (hq scale ox oy : ℚ) (italic : Bool) (x y : ℚ) : ℚ × ℚ :=
  let x := if italic then x + (hq - y) / 4 else x
  ((x + ox) * scale, (hq - (y + oy)) * scale)

/-- The ink pixels of a mask, in row-major order. -/
def inkPts (m : Mask) : List Pt :=
  (rowMajor m.w m.h).filter (fun p => m.get p.1 p.2)

/-- Modelled from the spec's words (the refinement target for claim C3):
the bounding extent as `(max corner X, max corner Y)` over the traced
region — the corners of an ink pixel `(x, y)` are `(x..x+1, y..y+1)`, so
this is `(max x + 1, max y + 1)` over the ink pixels. -/
def specExtent (m : Mask) : ℤ × ℤ :=
  (maxList ((inkPts m).map (fun p => p.1 + 1)),
   maxList ((inkPts m).map (fun p => p.2 + 1)))

/-- Maximum corner X over the ink pixels. -/
def maxCornerX (m : Mask) : ℤ :=
  maxList ((inkPts m).map (fun p => p.1 + 1))

/-- Minimum corner Y over the ink pixels (the top edge of the ink). -/
def minCornerY (m : Mask) : ℤ :=
  minList ((inkPts m).map (fun p => p.2))

/-- Unit displacement of a facing direction (y grows downward). -/
def dirVec : Dir → Pt
  | Dir.up => (0, -1)
  | Dir.down => (0, 1)
  | Dir.left => (-1, 0)
  | Dir.right => (1, 0)

/-- `traceStep` as a function on tracer states `(corner, facing)`. -/
def stepState (m : Mask) (s : Pt × Dir) : Pt × Dir :=
  traceStep m s.1 s.2

/-- The arrival invariant of the tracer: having just moved in direction
`s.2` to corner `s.1`, the pixel on the right-hand side of the traversed
edge is ink and the pixel on its left-hand side is background.  It holds
after every step taken from an invariant state, and after the first step
out of the start corner. -/
def traceInvB (m : Mask) (s : Pt × Dir) : Bool :=
  match s.2 with
  | Dir.right => m.get (s.1.1 - 1) s.1.2 && !(m.get (s.1.1 - 1) (s.1.2 - 1))
  | Dir.left => m.get s.1.1 (s.1.2 - 1) && !(m.get s.1.1 s.1.2)
  | Dir.up => m.get s.1.1 s.1.2 && !(m.get (s.1.1 - 1) s.1.2)
  | Dir.down => m.get (s.1.1 - 1) (s.1.2 - 1) && !(m.get s.1.1 (s.1.2 - 1))

/-- Is the 2×2 pixel neighborhood of corner `c` a checkerboard: exactly
two diagonally-opposite pixels ink, the other two background? -/
def checkerboardAt (m : Mask) (c : Pt) : Bool :=
  (m.get (c.1 - 1) (c.2 - 1) && m.get c.1 c.2 &&
    !(m.get c.1 (c.2 - 1)) && !(m.get (c.1 - 1) c.2)) ||
  (m.get c.1 (c.2 - 1) && m.get (c.1 - 1) c.2 &&
    !(m.get (c.1 - 1) (c.2 - 1)) && !(m.get c.1 c.2))

/-- The foreground pixel designated by the arrival invariant: the ink
pixel adjacent to the edge just traversed, on the region side. -/
def inkPixelBehind (s : Pt × Dir) : Pt :=
  match s.2 with
  | Dir.right => (s.1.1 - 1, s.1.2)
  | Dir.left => (s.1.1, s.1.2 - 1)
  | Dir.up => (s.1.1, s.1.2)
  | Dir.down => (s.1.1 - 1, s.1.2 - 1)

/-- The finite box containing every invariant tracer state: corners in
`[0, w] × [0, h]`, any of the four facings. -/
def stateBox (m : Mask) : Finset ((ℤ × ℤ) × Dir) :=
  (Finset.Icc (0 : ℤ) (m.w : ℤ) ×ˢ Finset.Icc (0 : ℤ) (m.h : ℤ)) ×ˢ
    ({Dir.up, Dir.down, Dir.left, Dir.right} : Finset Dir)

/-- A straight run of `k + 1` traced corners: `q, q+d, ..., q+k·d`. -/
def runPts (q d : Pt) : ℕ → List Pt
  | 0 => [q]
  | k + 1 => q :: runPts (q.1 + d.1, q.2 + d.2) d k

/-- Integer cross product `(p2 - p1) × (p3 - p1)` (the quantity whose
absolute value `collinear` compares with `1e-12`). -/
def crossZ (p1 p2 p3 : Pt) : ℤ :=
  (p2.1 - p1.1) * (p3.2 - p1.2) - (p3.1 - p1.1) * (p2.2 - p1.2)

/-- A registration event on the registry (the only two mutating entry
points of `FontBuilder`). -/
inductive RegOp
  | space (char : String) (width : ℚ)
  | glyph (char : String) (mask : Mask) (height ascent : ℕ)

/-- Apply one registration. -/
def applyOp (b : FontBuilder) : RegOp → FontBuilder
  | RegOp.space c w => add_space b c w
  | RegOp.glyph c m h a => add_glyph b c m h a

/-- The registry after an arbitrary sequence of registrations on a fresh
`FontBuilder`. -/
def applyOps (ops : List RegOp) : FontBuilder :=
  ops.foldl applyOp FontBuilder.init

/-- Concrete mask: a single ink pixel at the origin of a 1×1 grid. -/
def pxMask : Mask :=
  ⟨1, 1, fun x y => decide (x = 0 ∧ y = 0)⟩

/-- Concrete mask: a vertical 1×2 domino of ink pixels. -/
def dominoMask : Mask :=
  ⟨1, 2, fun x y => decide (x = 0 ∧ (y = 0 ∨ y = 1))⟩

/-- Concrete mask: a filled 4×4 square with a centered 2×2 square hole. -/
def ringMask : Mask :=
  ⟨4, 4, fun x y => decide (0 ≤ x ∧ x < 4 ∧ 0 ≤ y ∧ y < 4 ∧
    ¬(1 ≤ x ∧ x ≤ 2 ∧ 1 ≤ y ∧ y ≤ 2))⟩

/-- The `.notdef` mask built by `process_modern_font` and
`generate_legacy_fonts`: a 5×8 rectangle outline (border ink, hollow 3×6
interior). -/
def notdefMask : Mask :=
  ⟨5, 8, fun x y => decide (0 ≤ x ∧ x < 5 ∧ 0 ≤ y ∧ y < 8 ∧
    (x = 0 ∨ y = 0 ∨ x = 4 ∨ y = 7))⟩

/-- Concrete mask: two diagonally-touching ink pixels of a 2×2 grid (a
checkerboard at the central corner `(1, 1)`). -/
def checkerMask : Mask :=
  ⟨2, 2, fun x y => decide ((x = 0 ∧ y = 0) ∨ (x = 1 ∧ y = 1))⟩

/-- The registry after registering the `.notdef` glyph mask exactly as
`process_modern_font` does (`builder.add_glyph(".notdef", notdef, 8, 8)`). -/
def notdefBuilder : FontBuilder :=
  add_glyph FontBuilder.init ".notdef" notdefMask 8 8

/-- A registry with one width-only registration (for concrete dedup runs). -/
def spaceBuilder : FontBuilder :=
  add_space FontBuilder.init "A" 4

/-- The 1-character string of the supplementary-plane code point
`U+10000`. -/
def astralStr : String :=
  strOfCp 0x10000

/-- The point `q + n·d`. -/
def linePt (q d : Pt) (n : ℤ) : Pt :=
  (q.1 + n * d.1, q.2 + n * d.2)

/-- A sample glyph record (used to instantiate general theorems). -/
def d0 : GlyphData :=
  { width := 5, height := none, path := some [[(0, 0), (1, 0), (1, 1)]] }

/-- The key under which one loop iteration of `build_ttf` stores a glyph
entry: the character itself when reserved, its AGLFN/`uniXXXX` name
otherwise. -/
def keyOf (aglfn : String → Option String) (e : String × GlyphData) : String :=
  if e.1 = ".notdef" ∨ e.1 = ".null" then e.1 else glyphNameOf aglfn e.1

/-- C2 (amended): the style transform maps a retained corner point
`(x, y)` to `((x + offsetX + S) * scale, (maskHeight - (y + offsetY)) * scale)`
where the italic shear `S = (maskHeight - (y + offsetY)) / 4` — computed
from the *translated* y, not the untranslated one — is applied for the
italic styles only and `S = 0` otherwise. -/
theorem C2_transform_amended (hq scale ox oy x y : ℚ) (italic : Bool) :
    transformPt hq scale ox oy italic x y =
      ((x + ox + (if italic then (hq - (y + oy)) / 4 else 0)) * scale,
       (hq - (y + oy)) * scale) := by
  cases italic <;> simp [transformPt]

/-- C2 counterexample: with mask height 8, vertical offset 1, scale 1 and
the italic flag set, the source transform sends `(0, 0)` to `(7/4, 7)`
while the claim's formula (shear from the untranslated y) gives `(2, 7)`. -/
theorem C2_counterexample :
    transformPt 8 1 0 1 true 0 0 ≠ specTransformPt 8 1 0 1 true 0 0 := by
  simp only [transformPt, specTransformPt, if_pos rfl, ne_eq, Prod.mk.injEq, not_and]
  norm_num

/-- C4: once a character is in the `seen` set, any later registration of
it — as a space entry or as a glyph entry — returns the registry
unchanged (same `seen` set, same four style maps). -/
theorem C4_dedup_noop (b : FontBuilder) (char : String) (width : ℚ)
    (mask : Mask) (height ascent : ℕ) (h : char ∈ b.seen) :
    add_space b char width = b ∧ add_glyph b char mask height ascent = b := by
  constructor <;> simp [add_space, add_glyph, h]

/-- C4 witness: concrete registry with `"A"` registered; re-registering
`"A"` by either entry point is a no-op. -/
theorem C4_dedup_noop_witness :
    "A" ∈ spaceBuilder.seen ∧
      (add_space spaceBuilder "A" 9 = spaceBuilder ∧
        add_glyph spaceBuilder "A" pxMask 8 7 = spaceBuilder) :=
  ⟨by decide, C4_dedup_noop spaceBuilder "A" 9 pxMask 8 7 (by decide)⟩

/-- C6: on the 4×4 filled square with a centered 2×2 hole,
`separate_regions` returns exactly one filled region and exactly one hole
region, and the emitted outline has exactly two closed contours whose
signed areas have opposite signs (the hole contour, built from the
reversed trace, winds against the filled contour). -/
theorem C6_ring_winding :
    (separate_regions ringMask).1.length = 1 ∧
    (separate_regions ringMask).2.length = 1 ∧
    ((vectorize ringMask 1 (0, 0) false).1.getD []).length = 2 ∧
    ((vectorize ringMask 1 (0, 0) false).1.getD []) =
      [[(0, 4), (4, 4), (4, 0), (0, 0)], [(1, 3), (1, 1), (3, 1), (3, 3)]] ∧
    shoelace2 (((vectorize ringMask 1 (0, 0) false).1.getD []).getD 0 []) *
      shoelace2 (((vectorize ringMask 1 (0, 0) false).1.getD []).getD 1 []) < 0 := by
  have e1 : (separate_regions ringMask).1 =
      [Mask.ofPoints 4 4
        [(1, 0), (2, 0), (3, 0), (3, 1), (3, 2), (3, 3), (2, 3), (1, 3), (0, 3),
         (0, 2), (0, 1), (0, 0)]] := rfl
  have e2 : (separate_regions ringMask).2 =
      [Mask.ofPoints 4 4 [(2, 1), (2, 2), (1, 2), (1, 1)]] := rfl
  have t1 : trace_outline (Mask.ofPoints 4 4
      [(1, 0), (2, 0), (3, 0), (3, 1), (3, 2), (3, 3), (2, 3), (1, 3), (0, 3),
       (0, 2), (0, 1), (0, 0)]) =
      [(0, 0), (1, 0), (2, 0), (3, 0), (4, 0), (4, 1), (4, 2), (4, 3), (4, 4),
       (3, 4), (2, 4), (1, 4), (0, 4), (0, 3), (0, 2), (0, 1), (0, 0)] := by
    decide
  have t2 : (trace_outline (Mask.ofPoints 4 4 [(2, 1), (2, 2), (1, 2), (1, 1)])).reverse =
      [(1, 1), (1, 2), (1, 3), (2, 3), (3, 3), (3, 2), (3, 1), (2, 1), (1, 1)] := by
    decide
  have k1 : keptPoints (0, 0) none
      [(1, 0), (2, 0), (3, 0), (4, 0), (4, 1), (4, 2), (4, 3), (4, 4), (3, 4),
       (2, 4), (1, 4), (0, 4), (0, 3), (0, 2), (0, 1), (0, 0)] =
      [(4, 0), (4, 4), (0, 4)] := by decide
  have k2 : keptPoints (1, 1) none
      [(1, 2), (1, 3), (2, 3), (3, 3), (3, 2), (3, 1), (2, 1), (1, 1)] =
      [(1, 3), (3, 3), (3, 1)] := by decide
  have h4 : ((vectorize ringMask 1 (0, 0) false).1.getD []) =
      [[(0, 4), (4, 4), (4, 0), (0, 0)], [(1, 3), (1, 1), (3, 1), (3, 3)]] := by
    simp only [vectorize, e1, e2, List.isEmpty_cons, Bool.false_eq_true, if_false,
      List.map_cons, List.map_nil, t1, t2, List.cons_append, List.nil_append,
      Option.getD_some, contourOf, k1, k2]
    norm_num [transformPt, ringMask]
  refine ⟨by decide, by decide, ?_, h4, ?_⟩
  · rw [h4]
    rfl
  · rw [h4]
    norm_num [shoelace2, shoelaceAux]

/-- C5 counterexample: a `space` provider entry for U+10000 (code point
65536 > 0xFFFF) is registered into the registry — it is not filtered
out. -/
theorem C5_counterexample :
    astralStr ∈ (processSpaceProvider FontBuilder.init [(astralStr, 4)]).seen ∧
      0xFFFF < ordOf astralStr := by
  decide

/-- C3 counterexample: on the 1×2 vertical domino, `vectorize` returns
the extent `(1, 0)` (using the bounding rectangle's *top* edge), while
`(max corner X, max corner Y)` over the traced region is `(1, 2)`. -/
theorem C3_counterexample :
    (vectorize dominoMask 1 (0, 0) false).2 = (1, 0) ∧
      specExtent dominoMask = (1, 2) ∧
      (vectorize dominoMask 1 (0, 0) false).2 ≠ specExtent dominoMask := by
  decide

/-- The extent returned by `vectorize` depends only on the mask, not on
the scale, the offset or the italic flag. -/
theorem vectorize_snd_eq (m : Mask) (s s' : ℚ) (o o' : ℚ × ℚ) (it it' : Bool) :
    (vectorize m s o it).2 = (vectorize m s' o' it').2 := by
  unfold vectorize
  by_cases h : (separate_regions m).1.isEmpty <;> simp [h]

/-- The number of emitted contours depends only on the mask. -/
theorem vectorize_fst_length (m : Mask) (s s' : ℚ) (o o' : ℚ × ℚ) (it it' : Bool) :
    ((vectorize m s o it).1.map List.length) = ((vectorize m s' o' it').1.map List.length) := by
  unfold vectorize
  by_cases h : (separate_regions m).1.isEmpty <;> simp [h]

/-- C1 counterexample: `.notdef` is registered with the 5×8 ring glyph
mask exactly as `process_modern_font` does; the built Regular record then
carries advance width 600 (not 0) and a two-contour outline (not the
empty outline) for `.notdef`. -/
theorem C1_counterexample :
    List.lookup ".notdef"
        (build_ttf (fun _ => none) (notdefBuilder.fonts Style.Regular)).widths =
      some 600 ∧
    (List.lookup ".notdef"
        (build_ttf (fun _ => none) (notdefBuilder.fonts Style.Regular)).paths).map
        List.length = some 2 ∧
    (600 : ℚ) ≠ 0 := by
  have hseen : (".notdef" ∈ FontBuilder.init.seen) = False := by
    simp [FontBuilder.init]
  have hde : (".null" = ".notdef") = False := eq_false (by decide)
  have hsz : (vectorize notdefMask 1 (0, 0) false).2 = (5, 0) := by decide
  have hln : (vectorize notdefMask 1 (0, 0) false).1.map List.length = some 2 := by
    decide
  have habs : ∀ o : Option (List (List (ℚ × ℚ))),
      (o.getD []).length = (o.map List.length).getD 0 := by
    intro o; cases o <;> rfl
  simp only [notdefBuilder, add_glyph, hseen, if_false, build_ttf, List.foldl,
    build_ttf_step, build_ttf_init, List.nil_append]
  simp only [eq_self_iff_true, true_or, if_true, updateAssoc, hde, if_false,
    List.lookup, beq_self_eq_true, Option.map_some, Option.some.injEq]
  refine ⟨?_, ?_, by norm_num⟩
  · rw [vectorize_snd_eq notdefMask _ 1 _ (0, 0) _ false, hsz]
    norm_num [notdefMask, PIXEL_SCALE, FONT_EM]
  · simp only [Option.map_some, Option.map_some', Option.some.injEq, habs]
    rw [vectorize_fst_length notdefMask _ 1 _ (0, 0) _ false, hln]
    rfl

/-- The collinearity tolerance is `1e-12`. -/
theorem tol_eq_div : tol = 1 / 10 ^ 12 := by
  rw [← Rat.num_div_den tol]
  norm_num [tol]

/-- Registration never removes a character from the `seen` set
(`add_space`). -/
theorem seen_sub_add_space (b : FontBuilder) (c : String) (w : ℚ) (s : String)
    (h : s ∈ b.seen) : s ∈ (add_space b c w).seen := by
  unfold add_space
  split <;> simp [h]

/-- Registration never removes a character from the `seen` set
(`add_glyph`). -/
theorem seen_sub_add_glyph (b : FontBuilder) (c : String) (m : Mask) (hh aa : ℕ)
    (s : String) (h : s ∈ b.seen) : s ∈ (add_glyph b c m hh aa).seen := by
  unfold add_glyph
  split <;> simp [h]

/-- After `add_space b c w`, the character `c` is in the `seen` set. -/
theorem self_mem_add_space (b : FontBuilder) (c : String) (w : ℚ) :
    c ∈ (add_space b c w).seen := by
  unfold add_space
  split <;> simp_all

/-- After `add_glyph b c m h a`, the character `c` is in the `seen` set. -/
theorem self_mem_add_glyph (b : FontBuilder) (c : String) (m : Mask) (hh aa : ℕ) :
    c ∈ (add_glyph b c m hh aa).seen := by
  unfold add_glyph
  split <;> simp_all

/-- A character in the `seen` set of `add_space b c w` is `c` or was
already seen. -/
theorem mem_seen_add_space (b : FontBuilder) (c : String) (w : ℚ) (s : String)
    (h : s ∈ (add_space b c w).seen) : s = c ∨ s ∈ b.seen := by
  unfold add_space at h
  by_cases hc : c ∈ b.seen <;> simp [hc] at h <;> tauto

/-- A character in the `seen` set of `add_glyph b c m h a` is `c` or was
already seen. -/
theorem mem_seen_add_glyph (b : FontBuilder) (c : String) (m : Mask) (hh aa : ℕ)
    (s : String) (h : s ∈ (add_glyph b c m hh aa).seen) : s = c ∨ s ∈ b.seen := by
  unfold add_glyph at h
  by_cases hc : c ∈ b.seen <;> simp [hc] at h <;> tauto

/-- The unihex registration fold only ever adds the characters of its
glyph list. -/
theorem seen_unihex_fold (gl : List (ℕ × ℕ × List (ℕ × ℕ))) :
    ∀ (b : FontBuilder) (s : String),
      s ∈ (gl.foldl
        (fun b g => add_glyph b (strOfCp g.1) (unihex_to_mask g.2.1 g.2.2) 8 7) b).seen →
      s ∈ b.seen ∨ ∃ g ∈ gl, s = strOfCp g.1 := by
  induction gl with
  | nil => intro b s h; exact Or.inl h
  | cons g rest ih =>
    intro b s h
    rcases ih _ s h with h' | ⟨g', hg', hs⟩
    · rcases mem_seen_add_glyph _ _ _ _ _ _ h' with hs | hb
      · exact Or.inr ⟨g, by simp, hs⟩
      · exact Or.inl hb
    · exact Or.inr ⟨g', by simp [hg'], hs⟩

/-- The space registration fold keeps previously seen characters. -/
theorem seen_space_fold_mono (adv : List (String × ℚ)) :
    ∀ (b : FontBuilder) (s : String), s ∈ b.seen →
      s ∈ (adv.foldl (fun b e => add_space b e.1 e.2) b).seen := by
  induction adv with
  | nil => intro b s h; exact h
  | cons a rest ih =>
    intro b s h
    exact ih _ s (seen_sub_add_space _ _ _ _ h)

/-- Every entry of a space provider ends up registered. -/
theorem seen_space_fold (adv : List (String × ℚ)) :
    ∀ (b : FontBuilder) (e : String × ℚ), e ∈ adv →
      e.1 ∈ (adv.foldl (fun b e => add_space b e.1 e.2) b).seen := by
  induction adv with
  | nil => intro b e h; simp at h
  | cons a rest ih =>
    intro b e h
    rcases List.mem_cons.mp h with rfl | hr
    · exact seen_space_fold_mono rest _ _ (self_mem_add_space b e.1 e.2)
    · exact ih _ e hr

/-- The bitmap registration fold keeps previously seen characters. -/
theorem seen_bitmap_fold_mono (cells : List (String × Mask)) (hh aa : ℕ) :
    ∀ (b : FontBuilder) (s : String), s ∈ b.seen →
      s ∈ (cells.foldl
        (fun b e => if e.1 = String.mk [Char.ofNat 0] then b
          else add_glyph b e.1 e.2 hh aa) b).seen := by
  induction cells with
  | nil => intro b s h; exact h
  | cons a rest ih =>
    intro b s h
    refine ih _ s ?_
    dsimp only
    split
    · exact h
    · exact seen_sub_add_glyph _ _ _ _ _ _ h

/-- Every non-`"\0"` cell of a bitmap provider ends up registered. -/
theorem seen_bitmap_fold (cells : List (String × Mask)) (hh aa : ℕ) :
    ∀ (b : FontBuilder) (e : String × Mask), e ∈ cells →
      e.1 ≠ String.mk [Char.ofNat 0] →
      e.1 ∈ (cells.foldl
        (fun b e => if e.1 = String.mk [Char.ofNat 0] then b
          else add_glyph b e.1 e.2 hh aa) b).seen := by
  induction cells with
  | nil => intro b e h; simp at h
  | cons a rest ih =>
    intro b e h hz
    rcases List.mem_cons.mp h with rfl | hr
    · refine seen_bitmap_fold_mono rest hh aa _ _ ?_
      dsimp only
      rw [if_neg hz]
      exact self_mem_add_glyph b e.1 e.2 hh aa
    · exact ih _ e hr hz

/-- C5 (amended): only the `unihex` provider filters out code points
above `0xFFFF` — a character registered by unihex processing was already
seen or comes from a glyph with code point at most `0xFFFF` — while the
`space` and `bitmap` providers register every entry (every non-`"\0"`
cell) with no code-point filtering at all. -/
theorem C5_filter_amended :
    (∀ (b : FontBuilder) (glyphs : List (ℕ × ℕ × List (ℕ × ℕ))) (s : String),
      s ∈ (processUnihexProvider b glyphs).seen →
        s ∈ b.seen ∨ ∃ g ∈ glyphs, g.1 ≤ 0xFFFF ∧ s = strOfCp g.1) ∧
    (∀ (b : FontBuilder) (advances : List (String × ℚ)) (e : String × ℚ),
      e ∈ advances → e.1 ∈ (processSpaceProvider b advances).seen) ∧
    (∀ (b : FontBuilder) (cells : List (String × Mask)) (height ascent : ℕ)
      (e : String × Mask), e ∈ cells → e.1 ≠ String.mk [Char.ofNat 0] →
        e.1 ∈ (processBitmapProvider b cells height ascent).seen) := by
  refine ⟨?_, ?_, ?_⟩
  · intro b glyphs s h
    rcases seen_unihex_fold _ b s h with h' | ⟨g, hg, hs⟩
    · exact Or.inl h'
    · rcases List.mem_filter.mp hg with ⟨hmem, hle⟩
      exact Or.inr ⟨g, hmem, by simpa using hle, hs⟩
  · intro b advances e h
    exact seen_space_fold advances b e h
  · intro b cells height ascent e h hz
    exact seen_bitmap_fold cells height ascent b e h hz

/-- C5 witness: a unihex glyph list containing U+10000 registers nothing
beyond plane 0 (the registered `"A"` comes from code point 65 ≤ 0xFFFF),
a space provider registers U+10000, and a bitmap provider registers
U+10000. -/
theorem C5_filter_amended_witness :
    ("A" ∈ FontBuilder.init.seen ∨
      ∃ g ∈ [((0x10000 : ℕ), (4 : ℕ), ([] : List (ℕ × ℕ))), (65, 4, [])],
        g.1 ≤ 0xFFFF ∧ "A" = strOfCp g.1) ∧
    astralStr ∈ (processSpaceProvider FontBuilder.init [(astralStr, 4)]).seen ∧
    astralStr ∈ (processBitmapProvider FontBuilder.init [(astralStr, pxMask)] 8 7).seen :=
  ⟨C5_filter_amended.1 FontBuilder.init [(0x10000, 4, []), (65, 4, [])] "A" (by decide),
   C5_filter_amended.2.1 FontBuilder.init [(astralStr, 4)] (astralStr, 4)
     (List.mem_singleton.mpr rfl),
   C5_filter_amended.2.2 FontBuilder.init [(astralStr, pxMask)] 8 7 (astralStr, pxMask)
     (List.mem_singleton.mpr rfl) (by decide)⟩

/-- Appending an entry for `c` makes `c` found by lookup. -/
theorem lookup_append_self (c : String) (e : GlyphData) :
    ∀ l : List (String × GlyphData), (List.lookup c (l ++ [(c, e)])).isSome = true := by
  intro l
  induction l with
  | nil => simp [List.lookup]
  | cons kv rest ih =>
    rcases kv with ⟨k, v⟩
    simp only [List.cons_append, List.lookup]
    cases hbeq : c == k
    · exact ih
    · simp

/-- Appending an entry for a different key does not change a lookup. -/
theorem lookup_append_ne (c k : String) (e : GlyphData) (hne : c ≠ k) :
    ∀ l : List (String × GlyphData),
      List.lookup c (l ++ [(k, e)]) = List.lookup c l := by
  intro l
  induction l with
  | nil =>
    have hbeq : (c == k) = false := by simpa using hne
    simp [List.lookup, hbeq]
  | cons kv rest ih =>
    rcases kv with ⟨k', v⟩
    simp only [List.cons_append, List.lookup]
    cases hbeq : c == k' <;> simp [ih]

/-- Inserting one character into the seen set together with one entry per
style preserves the seen-iff-present-in-all-styles invariant. -/
theorem sync_insert (b : FontBuilder) (c0 : String) (e : Style → GlyphData)
    (hb : ∀ c, c ∈ b.seen ↔ ∀ s, (List.lookup c (b.fonts s)).isSome = true) :
    ∀ c, c ∈ (c0 :: b.seen) ↔
      ∀ s, (List.lookup c (b.fonts s ++ [(c0, e s)])).isSome = true := by
  intro c
  by_cases hc : c = c0
  · subst hc
    simp only [List.mem_cons, true_or, true_iff]
    intro s
    exact lookup_append_self c (e s) (b.fonts s)
  · constructor
    · intro h s
      rcases List.mem_cons.mp h with h' | h'
      · exact absurd h' hc
      · rw [lookup_append_ne c c0 (e s) hc]
        exact (hb c).mp h' s
    · intro h
      refine List.mem_cons.mpr (Or.inr ((hb c).mpr ?_))
      intro s
      have := h s
      rwa [lookup_append_ne c c0 (e s) hc] at this

/-- The seen-iff-present-in-all-styles invariant is preserved by each
registration. -/
theorem sync_applyOp (b : FontBuilder) (op : RegOp)
    (hb : ∀ c, c ∈ b.seen ↔ ∀ s, (List.lookup c (b.fonts s)).isSome = true) :
    ∀ c, c ∈ (applyOp b op).seen ↔
      ∀ s, (List.lookup c ((applyOp b op).fonts s)).isSome = true := by
  cases op with
  | space c0 w =>
    simp only [applyOp, add_space]
    by_cases hc : c0 ∈ b.seen
    · simpa [hc] using hb
    · simp only [hc, if_false]
      exact sync_insert b c0 _ hb
  | glyph c0 m hh aa =>
    simp only [applyOp, add_glyph]
    by_cases hc : c0 ∈ b.seen
    · simpa [hc] using hb
    · simp only [hc, if_false]
      exact sync_insert b c0 _ hb

/-- The invariant holds after any fold of registrations. -/
theorem sync_fold (ops : List RegOp) :
    ∀ b : FontBuilder,
      (∀ c, c ∈ b.seen ↔ ∀ s, (List.lookup c (b.fonts s)).isSome = true) →
      ∀ c, c ∈ (ops.foldl applyOp b).seen ↔
        ∀ s, (List.lookup c ((ops.foldl applyOp b).fonts s)).isSome = true := by
  induction ops with
  | nil => intro b hb; exact hb
  | cons op rest ih =>
    intro b hb
    exact ih (applyOp b op) (sync_applyOp b op hb)

/-- C10: after any sequence of `add_space`/`add_glyph` registrations on a
fresh `FontBuilder`, a character is in the `seen` set iff it has an entry
in each of the four style maps — every successful registration populates
all four styles together. -/
theorem C10_styles_in_sync (ops : List RegOp) (char : String) :
    char ∈ (applyOps ops).seen ↔
      ∀ s : Style, (List.lookup char ((applyOps ops).fonts s)).isSome = true := by
  refine sync_fold ops FontBuilder.init ?_ char
  intro c
  simp only [FontBuilder.init, List.not_mem_nil, false_iff, List.lookup,
    Option.isSome_none, Bool.false_eq_true, not_forall]
  exact ⟨Style.Regular, not_false⟩

/-- Looking up the key just assigned by a dict assignment finds the new
value. -/
theorem lookup_updateAssoc_self {α : Type} (k : String) (v : α) :
    ∀ l : List (String × α), List.lookup k (updateAssoc l k v) = some v := by
  intro l
  induction l with
  | nil => simp [updateAssoc, List.lookup]
  | cons kv rest ih =>
    rcases kv with ⟨k', v'⟩
    by_cases hk : k' = k
    · subst hk
      simp [updateAssoc, List.lookup]
    · have hbeq : (k == k') = false := by simpa using Ne.symm hk
      simp [updateAssoc, hk, List.lookup, hbeq, ih]

/-- A dict assignment to a different key does not change a lookup. -/
theorem lookup_updateAssoc_ne {α : Type} (c k : String) (hne : c ≠ k) (v : α) :
    ∀ l : List (String × α), List.lookup c (updateAssoc l k v) = List.lookup c l := by
  intro l
  induction l with
  | nil =>
    have hbeq : (c == k) = false := by simpa using hne
    simp [updateAssoc, List.lookup, hbeq]
  | cons kv rest ih =>
    rcases kv with ⟨k', v'⟩
    by_cases hk : k' = k
    · subst hk
      have hbeq : (c == k') = false := by simpa using hne
      simp [updateAssoc, List.lookup, hbeq]
    · simp only [updateAssoc, hk, if_false, List.lookup]
      cases hbeq : c == k' <;> simp [ih]

/-- Each `build_ttf` loop iteration assigns the width and path tables at
the key `keyOf`. -/
theorem build_step_key (aglfn : String → Option String) (r : TtfRecord)
    (e : String × GlyphData) :
    (build_ttf_step aglfn r e).widths = updateAssoc r.widths (keyOf aglfn e) e.2.width ∧
    (build_ttf_step aglfn r e).paths =
      updateAssoc r.paths (keyOf aglfn e) (e.2.path.getD []) := by
  unfold build_ttf_step keyOf
  by_cases h : e.1 = ".notdef" ∨ e.1 = ".null" <;> simp [h]

/-- Folding glyph entries none of which writes to the key `n` preserves
the lookups at `n`. -/
theorem build_fold_preserve (aglfn : String → Option String) (n : String) :
    ∀ (gl : List (String × GlyphData)) (r : TtfRecord),
      (∀ e ∈ gl, keyOf aglfn e ≠ n) →
      List.lookup n (gl.foldl (build_ttf_step aglfn) r).widths =
        List.lookup n r.widths ∧
      List.lookup n (gl.foldl (build_ttf_step aglfn) r).paths =
        List.lookup n r.paths := by
  intro gl
  induction gl with
  | nil => intro r _; exact ⟨rfl, rfl⟩
  | cons e rest ih =>
    intro r hk
    have hrest : ∀ e' ∈ rest, keyOf aglfn e' ≠ n := fun e' he' => hk e' (by simp [he'])
    have hne : n ≠ keyOf aglfn e := Ne.symm (hk e (by simp))
    have hstep := build_step_key aglfn r e
    have := ih (build_ttf_step aglfn r e) hrest
    rw [List.foldl_cons]
    refine ⟨?_, ?_⟩
    · rw [this.1, hstep.1, lookup_updateAssoc_ne n (keyOf aglfn e) hne]
    · rw [this.2, hstep.2, lookup_updateAssoc_ne n (keyOf aglfn e) hne]

/-- Folding glyph entries preserves the two reserved glyphs at the head
of the glyph order. -/
theorem build_fold_order (aglfn : String → Option String) :
    ∀ (gl : List (String × GlyphData)) (r : TtfRecord),
      r.order.take 2 = [".notdef", ".null"] → 2 ≤ r.order.length →
      (gl.foldl (build_ttf_step aglfn) r).order.take 2 = [".notdef", ".null"] := by
  intro gl
  induction gl with
  | nil => intro r h _; exact h
  | cons e rest ih =>
    intro r h hl
    rw [List.foldl_cons]
    have hord : (build_ttf_step aglfn r e).order.take 2 = [".notdef", ".null"] ∧
        2 ≤ (build_ttf_step aglfn r e).order.length := by
      unfold build_ttf_step
      by_cases hres : e.1 = ".notdef" ∨ e.1 = ".null"
      · simp only [hres, if_true]
        exact ⟨h, hl⟩
      · simp only [hres, if_false, List.length_append, List.length_cons,
          List.length_nil]
        exact ⟨by rw [List.take_append_of_le_length hl, h], by omega⟩
    exact ih _ hord.1 hord.2

/-- C1 (amended): for every style the built record's glyph order starts
with `.notdef`, `.null`; the `.null` glyph keeps advance width 0 and the
empty outline; but the entry of `.notdef` — registered earlier with a
glyph mask, hence present in the glyph dict with data `d` — is
overwritten by the loop: its stored width is `d`'s width and its stored
outline is `d`'s outline (the empty glyph only when `d` has no path). -/
theorem C1_reserved_amended (aglfn : String → Option String)
    (pre post : List (String × GlyphData)) (d : GlyphData)
    (hnull : ∀ e ∈ pre ++ (".notdef", d) :: post, keyOf aglfn e ≠ ".null")
    (hpost : ∀ e ∈ post, keyOf aglfn e ≠ ".notdef") :
    (build_ttf aglfn (pre ++ (".notdef", d) :: post)).order.take 2 =
      [".notdef", ".null"] ∧
    List.lookup ".null" (build_ttf aglfn (pre ++ (".notdef", d) :: post)).widths =
      some 0 ∧
    List.lookup ".null" (build_ttf aglfn (pre ++ (".notdef", d) :: post)).paths =
      some [] ∧
    List.lookup ".notdef" (build_ttf aglfn (pre ++ (".notdef", d) :: post)).widths =
      some d.width ∧
    List.lookup ".notdef" (build_ttf aglfn (pre ++ (".notdef", d) :: post)).paths =
      some (d.path.getD []) := by
  have hpre : ∀ e ∈ pre, keyOf aglfn e ≠ ".null" := fun e he => hnull e (by simp [he])
  have hmidnull : keyOf aglfn (".notdef", d) ≠ ".null" := hnull _ (by simp)
  have hpostnull : ∀ e ∈ post, keyOf aglfn e ≠ ".null" := fun e he =>
    hnull e (by simp [he])
  unfold build_ttf
  rw [List.foldl_append, List.foldl_cons]
  set r1 := pre.foldl (build_ttf_step aglfn) build_ttf_init with hr1
  set r2 := build_ttf_step aglfn r1 (".notdef", d) with hr2
  have hkey : keyOf aglfn (".notdef", d) = ".notdef" := by simp [keyOf]
  have hstep := build_step_key aglfn r1 (".notdef", d)
  have hpres1 := build_fold_preserve aglfn ".null" pre build_ttf_init hpre
  have hpres2 := build_fold_preserve aglfn ".null" post r2 hpostnull
  have hpres3 := build_fold_preserve aglfn ".notdef" post r2 hpost
  have hinitnull_w : List.lookup ".null" build_ttf_init.widths = some 0 := by
    simp [build_ttf_init, List.lookup]
  have hinitnull_p : List.lookup ".null" build_ttf_init.paths = some [] := by
    simp [build_ttf_init, List.lookup]
  have hnd : (".null" : String) ≠ ".notdef" := by decide
  refine ⟨?_, ?_, ?_, ?_, ?_⟩
  · have h1 := build_fold_order aglfn pre build_ttf_init (by rfl) (by simp [build_ttf_init])
    have h2 : r2.order = r1.order := by
      rw [hr2]
      unfold build_ttf_step
      simp
    have hlen : 2 ≤ r1.order.length := by
      have hthis := congrArg List.length h1
      rw [← hr1] at hthis
      simp only [List.length_take, List.length_cons, List.length_nil] at hthis
      omega
    refine build_fold_order aglfn post r2 ?_ ?_
    · rw [h2, hr1]; exact h1
    · rw [h2]; exact hlen
  · rw [hpres2.1, hstep.1, hkey, lookup_updateAssoc_ne _ _ hnd, hpres1.1, hinitnull_w]
  · rw [hpres2.2, hstep.2, hkey, lookup_updateAssoc_ne _ _ hnd, hpres1.2, hinitnull_p]
  · rw [hpres3.1, hstep.1, hkey, lookup_updateAssoc_self]
  · rw [hpres3.2, hstep.2, hkey, lookup_updateAssoc_self]

/-- C1 (amended) witness: instantiated at a one-entry glyph dict holding
a registered `.notdef` with data `d0` (width 5, a nonempty outline). -/
theorem C1_reserved_amended_witness :
    (build_ttf (fun _ => none) ([] ++ (".notdef", d0) :: [])).order.take 2 =
      [".notdef", ".null"] ∧
    List.lookup ".null" (build_ttf (fun _ => none) ([] ++ (".notdef", d0) :: [])).widths =
      some 0 ∧
    List.lookup ".null" (build_ttf (fun _ => none) ([] ++ (".notdef", d0) :: [])).paths =
      some [] ∧
    List.lookup ".notdef" (build_ttf (fun _ => none) ([] ++ (".notdef", d0) :: [])).widths =
      some d0.width ∧
    List.lookup ".notdef" (build_ttf (fun _ => none) ([] ++ (".notdef", d0) :: [])).paths =
      some (d0.path.getD []) :=
  C1_reserved_amended (fun _ => none) [] [] d0
    (by
      intro e he
      rw [List.nil_append, List.mem_singleton] at he
      subst he
      decide)
    (by simp)

/-- On integer corner points the `1e-12` tolerance test of `collinear` is
exactly the vanishing of the integer cross product. -/
theorem collinear_iff (p1 p2 p3 : Pt) :
    collinear p1 p2 p3 = true ↔ crossZ p1 p2 p3 = 0 := by
  unfold collinear crossZ
  rw [decide_eq_true_eq]
  constructor
  · intro h
    by_contra hc
    have h1 : (1 : ℚ) ≤
        |(((p2.1 - p1.1) * (p3.2 - p1.2) - (p3.1 - p1.1) * (p2.2 - p1.2) : ℤ) : ℚ)| := by
      rw [← Int.cast_abs]
      exact_mod_cast Int.one_le_abs hc
    have h2 : tol < 1 := by decide
    linarith
  · intro h
    rw [h]
    simpa using (by decide : (0 : ℚ) < tol)

/-- Cross products along the line through `q` with direction `d` scale
linearly. -/
theorem crossZ_scale (P q d : Pt) (n : ℤ) :
    crossZ P q (linePt q d n) = n * crossZ P q (q.1 + d.1, q.2 + d.2) := by
  unfold crossZ linePt
  ring

/-- Cross product of two points of the line through `q` with direction
`d`, seen from any point `P`. -/
theorem crossZ_affine (P q d : Pt) (a b : ℤ) :
    crossZ P (q.1 + a * d.1, q.2 + a * d.2) (q.1 + b * d.1, q.2 + b * d.2) =
      (b - a) * crossZ P q (q.1 + d.1, q.2 + d.2) := by
  unfold crossZ
  ring

/-- Three points of the line through `q` with direction `d` have zero
cross product. -/
theorem crossZ_line (q d : Pt) (n : ℤ) :
    crossZ q (q.1 + d.1, q.2 + d.2) (linePt q d n) = 0 := by
  unfold crossZ linePt
  ring

/-- For a nonzero multiplier the collinearity test against the scaled run
endpoint agrees with the test against the next run point. -/
theorem collinear_scale (P q d : Pt) (n : ℤ) (hn : n ≠ 0) :
    collinear P q (linePt q d n) = collinear P q (q.1 + d.1, q.2 + d.2) := by
  rw [Bool.eq_iff_iff, collinear_iff, collinear_iff, crossZ_scale, mul_eq_zero]
  tauto

/-- The run points after `q` collapse to the run endpoint: the
simplification loop drops every interior point of a straight run. -/
theorem keptPoints_run (d : Pt) : ∀ (j : ℕ) (prev q : Pt) (B : List Pt),
    keptPoints prev (some q) (runPts (q.1 + d.1, q.2 + d.2) d j ++ B) =
      keptPoints prev (some q) (linePt q d (j + 1) :: B) := by
  intro j
  induction j with
  | zero =>
    intro prev q B
    simp [runPts, linePt]
  | succ j ih =>
    intro prev q B
    have hcast : ((j : ℤ) + 1 + 1) ≠ 0 := by omega
    have hend : linePt (q.1 + d.1, q.2 + d.2) d (j + 1) = linePt q d ((j : ℤ) + 1 + 1) := by
      unfold linePt
      rw [Prod.ext_iff]
      refine ⟨?_, ?_⟩ <;> simp <;> ring
    rw [show runPts (q.1 + d.1, q.2 + d.2) d (j + 1) =
      (q.1 + d.1, q.2 + d.2) :: runPts (q.1 + d.1 + d.1, q.2 + d.2 + d.2) d j from rfl]
    rw [List.cons_append]
    simp only [keptPoints]
    have hdec : collinear prev q (linePt q d ((j : ℤ) + 1 + 1)) =
        collinear prev q (q.1 + d.1, q.2 + d.2) := collinear_scale prev q d _ hcast
    have hshift : ((j + 1 : ℕ) : ℤ) + 1 = (j : ℤ) + 1 + 1 := by push_cast; ring
    by_cases hc : collinear prev q (q.1 + d.1, q.2 + d.2) = true
    · have ihx := ih prev (q.1 + d.1, q.2 + d.2) B
      have hc2 : collinear prev (q.1 + d.1, q.2 + d.2) (linePt q d ((j : ℤ) + 1 + 1)) = true := by
        rw [collinear_iff] at hc
        rw [collinear_iff]
        unfold linePt
        have haff := crossZ_affine prev q d 1 ((j : ℤ) + 1 + 1)
        simp only [one_mul] at haff
        rw [haff, hc, mul_zero]
      have hgoal : collinear prev q (linePt q d (((j + 1 : ℕ) : ℤ) + 1)) = true := by
        rw [hshift, hdec]
        exact hc
      rw [ihx, hend]
      simp only [keptPoints, hshift, hdec, hc, hc2, hgoal, if_true]
    · rw [Bool.not_eq_true] at hc
      have ihx := ih q (q.1 + d.1, q.2 + d.2) B
      have hc2 : collinear q (q.1 + d.1, q.2 + d.2) (linePt q d ((j : ℤ) + 1 + 1)) = true := by
        rw [collinear_iff]
        exact crossZ_line q d _
      have hgoal : collinear prev q (linePt q d (((j + 1 : ℕ) : ℤ) + 1)) = false := by
        rw [hshift, hdec]
        exact hc
      rw [ihx, hend]
      simp only [keptPoints, hshift, hdec, hc, hc2, hgoal, if_true, Bool.false_eq_true,
        if_false]

/-- Straight-run collapse through an arbitrary prefix: the simplification
state machine produces the same output whether the interior run points
are present or not. -/
theorem keptPoints_run_append (d : Pt) (k : ℕ) (hk : 1 ≤ k) :
    ∀ (A : List Pt) (prev : Pt) (curr : Option Pt) (q : Pt) (B : List Pt),
      keptPoints prev curr (A ++ runPts q d k ++ B) =
        keptPoints prev curr (A ++ [q, linePt q d (k : ℤ)] ++ B) := by
  intro A
  induction A with
  | nil =>
    intro prev curr q B
    obtain ⟨j, rfl⟩ : ∃ j, k = j + 1 := ⟨k - 1, by omega⟩
    have hcast : ((j + 1 : ℕ) : ℤ) = (j : ℤ) + 1 := by push_cast; ring
    rw [show runPts q d (j + 1) = q :: runPts (q.1 + d.1, q.2 + d.2) d j from rfl]
    cases curr with
    | none =>
      simp only [List.nil_append, List.cons_append, List.append_eq, keptPoints, hcast]
      rw [keptPoints_run d j prev q B]
      simp only [keptPoints]
    | some c =>
      simp only [List.nil_append, List.cons_append, List.append_eq, keptPoints, hcast]
      by_cases hc : collinear prev c q = true
      · simp only [hc, if_true]
        rw [keptPoints_run d j prev q B]
        simp only [keptPoints]
      · rw [Bool.not_eq_true] at hc
        simp only [hc, Bool.false_eq_true, if_false]
        rw [keptPoints_run d j c q B]
        simp only [keptPoints]
  | cons a A' ih =>
    intro prev curr q B
    cases curr with
    | none =>
      simp only [List.cons_append, List.append_eq, keptPoints]
      exact ih prev (some a) q B
    | some c =>
      simp only [List.cons_append, List.append_eq, keptPoints]
      by_cases hc : collinear prev c a = true
      · simp only [hc, if_true]
        exact ih prev (some a) q B
      · rw [Bool.not_eq_true] at hc
        simp only [hc, Bool.false_eq_true, if_false]
        rw [ih c (some a) q B]

/-- C9: for every straight run of at least three consecutive collinear
traced corners `q, q+d, ..., q+k·d` (k ≥ 2) anywhere in the traced
sequence, the emitted contour is the same as if only the run's two
endpoints were present: every interior run point is dropped by the
simplification and contributes no line segment. -/
theorem C9_collinear_run (tf : Pt → ℚ × ℚ) (A B : List Pt) (q d : Pt) (k : ℕ)
    (hk : 2 ≤ k) :
    contourOf tf (A ++ runPts q d k ++ B) =
      contourOf tf (A ++ [q, linePt q d (k : ℤ)] ++ B) := by
  cases A with
  | cons a A' =>
    simp only [List.cons_append, contourOf]
    rw [keptPoints_run_append d k (by omega) A' a none q B]
  | nil =>
    obtain ⟨j, rfl⟩ : ∃ j, k = j + 2 := ⟨k - 2, by omega⟩
    have hcast : ((j + 2 : ℕ) : ℤ) = (j : ℤ) + 1 + 1 := by push_cast; ring
    have hend : linePt (q.1 + d.1, q.2 + d.2) d ((j : ℤ) + 1) =
        linePt q d ((j : ℤ) + 1 + 1) := by
      unfold linePt
      rw [Prod.ext_iff]
      refine ⟨?_, ?_⟩ <;> simp <;> ring
    rw [show runPts q d (j + 2) =
      q :: (q.1 + d.1, q.2 + d.2) ::
        runPts (q.1 + d.1 + d.1, q.2 + d.2 + d.2) d j from rfl]
    simp only [List.nil_append, List.cons_append, contourOf, keptPoints, hcast]
    have hrun := keptPoints_run d j q (q.1 + d.1, q.2 + d.2) B
    rw [hrun, hend]
    have hcol : collinear q (q.1 + d.1, q.2 + d.2) (linePt q d ((j : ℤ) + 1 + 1)) = true := by
      rw [collinear_iff]
      exact crossZ_line q d _
    simp only [keptPoints, hcol, if_true]

/-- C9 witness: a concrete horizontal run of three corners between a
non-collinear prefix and suffix collapses to its endpoints. -/
theorem C9_collinear_run_witness :
    (2 : ℕ) ≤ 2 ∧
      contourOf (fun p => ((p.1 : ℚ), (p.2 : ℚ)))
          ([(0, 1)] ++ runPts (0, 0) (1, 0) 2 ++ [(5, 5)]) =
        contourOf (fun p => ((p.1 : ℚ), (p.2 : ℚ)))
          ([(0, 1)] ++ [(0, 0), linePt (0, 0) (1, 0) ((2 : ℕ) : ℤ)] ++ [(5, 5)]) :=
  ⟨by decide,
   C9_collinear_run (fun p => ((p.1 : ℚ), (p.2 : ℚ))) [(0, 1)] [(5, 5)] (0, 0) (1, 0) 2
     (by decide)⟩

/-- C8: at a checkerboard corner (exactly two diagonally-opposite ink
pixels), a tracer in an invariant arrival state steps so that the
foreground pixel of its outgoing edge is the diagonal partner (reflection
through the corner) of the foreground pixel of its incoming edge — both
are ink, so the tracer keeps the ink diagonal as foreground and never
switches to the other diagonal's region; the arrival invariant is
maintained. -/
theorem C8_checkerboard (m : Mask) (s : (ℤ × ℤ) × Dir)
    (hinv : traceInvB m s = true) (hcb : checkerboardAt m s.1 = true) :
    inkPixelBehind (stepState m s) =
      (2 * s.1.1 - 1 - (inkPixelBehind s).1, 2 * s.1.2 - 1 - (inkPixelBehind s).2) ∧
    m.get (inkPixelBehind s).1 (inkPixelBehind s).2 = true ∧
    m.get (inkPixelBehind (stepState m s)).1 (inkPixelBehind (stepState m s)).2 = true ∧
    traceInvB m (stepState m s) = true := by
  obtain ⟨⟨x, y⟩, f⟩ := s
  cases f with
  | right =>
    simp only [traceInvB, Bool.and_eq_true, Bool.not_eq_true'] at hinv
    obtain ⟨hbl, htl⟩ := hinv
    simp only [checkerboardAt, htl, hbl, Bool.false_and, Bool.and_false, Bool.true_and,
      Bool.and_true, Bool.not_true, Bool.not_false, Bool.false_or, Bool.or_false,
      Bool.and_eq_true, Bool.not_eq_true'] at hcb
    obtain ⟨htr, hbr⟩ := hcb
    have hstep : stepState m ((x, y), Dir.right) = ((x, y - 1), Dir.up) := by
      simp [stepState, traceStep, htl, htr, hbl, hbr]
    rw [hstep]
    refine ⟨?_, ?_, ?_, ?_⟩
    · simp only [inkPixelBehind, Prod.mk.injEq]
      omega
    · simpa [inkPixelBehind] using hbl
    · simpa [inkPixelBehind] using htr
    · simp [traceInvB, htr, htl]
  | left =>
    simp only [traceInvB, Bool.and_eq_true, Bool.not_eq_true'] at hinv
    obtain ⟨htr, hbr⟩ := hinv
    simp only [checkerboardAt, htr, hbr, Bool.false_and, Bool.and_false, Bool.true_and,
      Bool.and_true, Bool.not_true, Bool.not_false, Bool.false_or, Bool.or_false,
      Bool.and_eq_true, Bool.not_eq_true'] at hcb
    obtain ⟨hbl, htl⟩ := hcb
    have hstep : stepState m ((x, y), Dir.left) = ((x, y + 1), Dir.down) := by
      simp [stepState, traceStep, htl, htr, hbl, hbr]
    rw [hstep]
    refine ⟨?_, ?_, ?_, ?_⟩
    · simp only [inkPixelBehind, Prod.mk.injEq]
      omega
    · simpa [inkPixelBehind] using htr
    · simpa [inkPixelBehind] using hbl
    · simp [traceInvB, hbl, hbr]
  | up =>
    simp only [traceInvB, Bool.and_eq_true, Bool.not_eq_true'] at hinv
    obtain ⟨hbr, hbl⟩ := hinv
    simp only [checkerboardAt, hbr, hbl, Bool.false_and, Bool.and_false, Bool.true_and,
      Bool.and_true, Bool.not_true, Bool.not_false, Bool.false_or, Bool.or_false,
      Bool.and_eq_true, Bool.not_eq_true'] at hcb
    obtain ⟨htl, htr⟩ := hcb
    have hstep : stepState m ((x, y), Dir.up) = ((x - 1, y), Dir.left) := by
      simp [stepState, traceStep, htl, htr, hbl, hbr]
    rw [hstep]
    refine ⟨?_, ?_, ?_, ?_⟩
    · simp only [inkPixelBehind, Prod.mk.injEq]
      omega
    · simpa [inkPixelBehind] using hbr
    · simpa [inkPixelBehind] using htl
    · simp [traceInvB, htl, hbl]
  | down =>
    simp only [traceInvB, Bool.and_eq_true, Bool.not_eq_true'] at hinv
    obtain ⟨htl, htr⟩ := hinv
    simp only [checkerboardAt, htl, htr, Bool.false_and, Bool.and_false, Bool.true_and,
      Bool.and_true, Bool.not_true, Bool.not_false, Bool.false_or, Bool.or_false,
      Bool.and_eq_true, Bool.not_eq_true'] at hcb
    obtain ⟨hbr, hbl⟩ := hcb
    have hstep : stepState m ((x, y), Dir.down) = ((x + 1, y), Dir.right) := by
      simp [stepState, traceStep, htl, htr, hbl, hbr]
    rw [hstep]
    refine ⟨?_, ?_, ?_, ?_⟩
    · simp only [inkPixelBehind, Prod.mk.injEq]
      omega
    · simpa [inkPixelBehind] using htl
    · simpa [inkPixelBehind] using hbr
    · simp [traceInvB, hbr, htr]

/-- C8 witness: on the 2×2 diagonal mask, the tracer arriving upward at
the central corner `(1, 1)` crosses to the diagonal partner pixel. -/
theorem C8_checkerboard_witness :
    traceInvB checkerMask ((1, 1), Dir.up) = true ∧
      checkerboardAt checkerMask (1, 1) = true ∧
      (inkPixelBehind (stepState checkerMask ((1, 1), Dir.up)) =
        (2 * 1 - 1 - (inkPixelBehind ((1, 1), Dir.up)).1,
         2 * 1 - 1 - (inkPixelBehind ((1, 1), Dir.up)).2) ∧
      checkerMask.get (inkPixelBehind ((1, 1), Dir.up)).1
        (inkPixelBehind ((1, 1), Dir.up)).2 = true ∧
      checkerMask.get (inkPixelBehind (stepState checkerMask ((1, 1), Dir.up))).1
        (inkPixelBehind (stepState checkerMask ((1, 1), Dir.up))).2 = true ∧
      traceInvB checkerMask (stepState checkerMask ((1, 1), Dir.up)) = true) :=
  ⟨by decide, by decide,
   C8_checkerboard checkerMask ((1, 1), Dir.up) (by decide) (by decide)⟩

/-- Membership in the row-major coordinate list is exactly being in the
grid box. -/
theorem mem_rowCoords (y : ℤ) (w : ℕ) (p : Pt) :
    p ∈ rowCoords y w ↔ 0 ≤ p.1 ∧ p.1 < (w : ℤ) ∧ p.2 = y := by
  induction w with
  | zero =>
    simp only [rowCoords, List.not_mem_nil, false_iff, Nat.cast_zero]
    omega
  | succ ww ih =>
    simp only [rowCoords, List.mem_append, List.mem_singleton, ih, Prod.ext_iff]
    constructor
    · rintro (⟨h1, h2, h3⟩ | ⟨h1, h2⟩)
      · refine ⟨h1, by push_cast; omega, h3⟩
      · refine ⟨by rw [h1]; positivity, by rw [h1]; push_cast; omega, h2⟩
    · rintro ⟨h1, h2, h3⟩
      by_cases hx : p.1 < (ww : ℤ)
      · exact Or.inl ⟨h1, hx, h3⟩
      · refine Or.inr ⟨?_, h3⟩
        push_cast at h2
        omega

theorem mem_rowMajor (w h : ℕ) (p : Pt) :
    p ∈ rowMajor w h ↔ 0 ≤ p.1 ∧ p.1 < (w : ℤ) ∧ 0 ≤ p.2 ∧ p.2 < (h : ℤ) := by
  induction h with
  | zero =>
    simp only [rowMajor, List.not_mem_nil, false_iff, Nat.cast_zero]
    omega
  | succ hh ih =>
    simp only [rowMajor, List.mem_append, ih, mem_rowCoords]
    constructor
    · rintro (⟨h1, h2, h3, h4⟩ | ⟨h1, h2, h3⟩)
      · refine ⟨h1, h2, h3, by push_cast; omega⟩
      · refine ⟨h1, h2, by rw [h3]; positivity, by rw [h3]; push_cast; omega⟩
    · rintro ⟨h1, h2, h3, h4⟩
      by_cases hy : p.2 < (hh : ℤ)
      · exact Or.inl ⟨h1, h2, h3, hy⟩
      · refine Or.inr ⟨h1, h2, ?_⟩
        push_cast at h4
        omega

/-- An ink read that succeeds pins the coordinates inside the grid. -/
theorem get_true_bounds (m : Mask) (x y : ℤ) (h : m.get x y = true) :
    0 ≤ x ∧ x < (m.w : ℤ) ∧ 0 ≤ y ∧ y < (m.h : ℤ) := by
  unfold Mask.get at h
  rcases Bool.and_eq_true .. ▸ h with ⟨hb, _⟩
  exact of_decide_eq_true hb

/-- The ink-pixel list contains exactly the pixels whose read succeeds. -/
theorem mem_inkPts (m : Mask) (p : Pt) :
    p ∈ inkPts m ↔ m.get p.1 p.2 = true := by
  unfold inkPts
  rw [List.mem_filter]
  constructor
  · exact fun h => h.2
  · intro h
    refine ⟨(mem_rowMajor m.w m.h p).mpr ?_, h⟩
    exact get_true_bounds m p.1 p.2 h

/-- Every pixel marked by the flood fill satisfies the region predicate. -/
theorem flood_sound (P : Pt → Bool) :
    ∀ (fuel : ℕ) (queue checked : List Pt),
      (∀ c ∈ checked, P c = true) →
      ∀ q ∈ flood P fuel queue checked, P q = true := by
  intro fuel
  induction fuel with
  | zero => intro queue checked hc q hq; exact hc q hq
  | succ fuel ih =>
    intro queue checked hc q hq
    cases queue with
    | nil => exact hc q hq
    | cons p rest =>
      rw [flood] at hq
      by_cases hp : p ∈ checked
      · rw [if_pos hp] at hq
        exact ih rest checked hc q hq
      · rw [if_neg hp] at hq
        by_cases hPp : P p = true
        · rw [if_pos hPp] at hq
          refine ih (nbrs p ++ rest) (p :: checked) ?_ q hq
          intro c hcmem
          rcases List.mem_cons.mp hcmem with rfl | hcm
          · exact hPp
          · exact hc c hcm
        · rw [if_neg hPp] at hq
          exact ih rest checked hc q hq

/-- The flood fill never unmarks a pixel. -/
theorem flood_checked_sub (P : Pt → Bool) :
    ∀ (fuel : ℕ) (queue checked : List Pt) (q : Pt),
      q ∈ checked → q ∈ flood P fuel queue checked := by
  intro fuel
  induction fuel with
  | zero => intro queue checked q hq; exact hq
  | succ fuel ih =>
    intro queue checked q hq
    cases queue with
    | nil => exact hq
    | cons p rest =>
      rw [flood]
      by_cases hp : p ∈ checked
      · rw [if_pos hp]
        exact ih rest checked q hq
      · rw [if_neg hp]
        by_cases hPp : P p = true
        · rw [if_pos hPp]
          exact ih (nbrs p ++ rest) (p :: checked) q (List.mem_cons.mpr (Or.inr hq))
        · rw [if_neg hPp]
          exact ih rest checked q hq

/-- The seed of a flood fill is marked (with the canonical fuel). -/
theorem floodFrom_self_mem (P : Pt → Bool) (w h : ℕ) (p : Pt) (hp : P p = true) :
    p ∈ floodFrom P (floodFuel w h) p := by
  obtain ⟨f, hf⟩ : ∃ f, floodFuel w h = f + 1 := ⟨5 * (w * h) + 4, by unfold floodFuel; omega⟩
  unfold floodFrom
  rw [hf, flood, if_neg (List.not_mem_nil p), if_pos hp]
  exact flood_checked_sub P f _ _ p (List.mem_cons_self p [])

/-- A list with a true `any` splits at its first witness. -/
theorem firstSplit (P : Pt → Bool) :
    ∀ l : List Pt, l.any P = true →
      ∃ pre p rest, l = pre ++ p :: rest ∧ (∀ q ∈ pre, P q = false) ∧ P p = true := by
  intro l
  induction l with
  | nil => intro h; simp at h
  | cons a rest ih =>
    intro h
    by_cases ha : P a = true
    · exact ⟨[], a, rest, rfl, by simp, ha⟩
    · rw [Bool.not_eq_true] at ha
      have h' : rest.any P = true := by
        rcases List.any_eq_true.mp h with ⟨x, hx, hPx⟩
        rcases List.mem_cons.mp hx with rfl | hxr
        · rw [ha] at hPx; cases hPx
        · exact List.any_eq_true.mpr ⟨x, hxr, hPx⟩
      rcases ih h' with ⟨pre, p, rest', heq, hpre, hp⟩
      exact ⟨a :: pre, p, rest', by rw [heq]; rfl, by
        intro q hq
        rcases List.mem_cons.mp hq with rfl | hqr
        · exact ha
        · exact hpre q hqr, hp⟩

/-- Scanning positions that are background or already covered finds no new
region. -/
theorem compsAux_skip (P : Pt → Bool) (fuel : ℕ) :
    ∀ (l : List Pt) (acc : List (List Pt)),
      (∀ q ∈ l, P q = true → memAny q acc = true) →
      componentsAux P fuel l acc = acc := by
  intro l
  induction l with
  | nil => intro acc _; rfl
  | cons p rest ih =>
    intro acc h
    rw [componentsAux]
    have : (P p && !memAny p acc) = false := by
      cases hPp : P p
      · simp
      · simp [h p (List.mem_cons_self p rest) hPp]
    rw [this, if_neg (by simp)]
    exact ih acc (fun q hq => h q (List.mem_cons.mpr (Or.inr hq)))

/-- Scanning a background prefix leaves the state unchanged. -/
theorem compsAux_pre (P : Pt → Bool) (fuel : ℕ) :
    ∀ (pre l : List Pt) (acc : List (List Pt)),
      (∀ q ∈ pre, P q = false) →
      componentsAux P fuel (pre ++ l) acc = componentsAux P fuel l acc := by
  intro pre
  induction pre with
  | nil => intro l acc _; rfl
  | cons p rest ih =>
    intro l acc h
    rw [List.cons_append, componentsAux]
    have hp : P p = false := h p (List.mem_cons_self p rest)
    rw [show (P p && !memAny p acc) = false by simp [hp], if_neg (by simp)]
    exact ih l acc (fun q hq => h q (List.mem_cons.mpr (Or.inr hq)))

/-- A maximum of a nonempty integer list is one of its elements. -/
theorem maxList_mem : ∀ (l : List ℤ), l ≠ [] → maxList l ∈ l := by
  have key : ∀ (r : List ℤ) (a : ℤ), r.foldl max a = a ∨ r.foldl max a ∈ r := by
    intro r
    induction r with
    | nil => intro a; exact Or.inl rfl
    | cons b r' ih =>
      intro a
      rcases ih (max a b) with h | h
      · rcases max_choice a b with hm | hm
        · rw [List.foldl_cons, h, hm]; exact Or.inl rfl
        · rw [List.foldl_cons, h, hm]; exact Or.inr (List.mem_cons_self b r')
      · exact Or.inr (List.mem_cons.mpr (Or.inr (by rw [List.foldl_cons]; exact h)))
  intro l hl
  cases l with
  | nil => exact absurd rfl hl
  | cons a r =>
    rcases key r a with h | h
    · rw [maxList, h]; exact List.mem_cons_self a r
    · rw [maxList]; exact List.mem_cons.mpr (Or.inr h)

/-- Every element of an integer list is at most its maximum. -/
theorem le_maxList : ∀ (l : List ℤ) (x : ℤ), x ∈ l → x ≤ maxList l := by
  have key1 : ∀ (r : List ℤ) (a : ℤ), a ≤ r.foldl max a := by
    intro r
    induction r with
    | nil => intro a; exact le_refl a
    | cons b r' ih =>
      intro a
      exact le_trans (le_max_left a b) (by rw [List.foldl_cons]; exact ih (max a b))
  have key2 : ∀ (r : List ℤ) (a x : ℤ), x ∈ r → x ≤ r.foldl max a := by
    intro r
    induction r with
    | nil => intro a x hx; simp at hx
    | cons b r' ih =>
      intro a x hx
      rcases List.mem_cons.mp hx with rfl | hx'
      · exact le_trans (le_max_right a x) (by rw [List.foldl_cons]; exact key1 r' (max a x))
      · rw [List.foldl_cons]; exact ih (max a b) x hx'
  intro l x hx
  cases l with
  | nil => simp at hx
  | cons a r =>
    rcases List.mem_cons.mp hx with rfl | hx'
    · rw [maxList]; exact key1 r x
    · rw [maxList]; exact key2 r a x hx'

/-- A minimum of a nonempty integer list is one of its elements. -/
theorem minList_mem : ∀ (l : List ℤ), l ≠ [] → minList l ∈ l := by
  have key : ∀ (r : List ℤ) (a : ℤ), r.foldl min a = a ∨ r.foldl min a ∈ r := by
    intro r
    induction r with
    | nil => intro a; exact Or.inl rfl
    | cons b r' ih =>
      intro a
      rcases ih (min a b) with h | h
      · rcases min_choice a b with hm | hm
        · rw [List.foldl_cons, h, hm]; exact Or.inl rfl
        · rw [List.foldl_cons, h, hm]; exact Or.inr (List.mem_cons_self b r')
      · exact Or.inr (List.mem_cons.mpr (Or.inr (by rw [List.foldl_cons]; exact h)))
  intro l hl
  cases l with
  | nil => exact absurd rfl hl
  | cons a r =>
    rcases key r a with h | h
    · rw [minList, h]; exact List.mem_cons_self a r
    · rw [minList]; exact List.mem_cons.mpr (Or.inr h)

/-- The minimum of an integer list is at most each element. -/
theorem minList_le : ∀ (l : List ℤ) (x : ℤ), x ∈ l → minList l ≤ x := by
  have key1 : ∀ (r : List ℤ) (a : ℤ), r.foldl min a ≤ a := by
    intro r
    induction r with
    | nil => intro a; exact le_refl a
    | cons b r' ih =>
      intro a
      exact le_trans (by rw [List.foldl_cons]; exact ih (min a b)) (min_le_left a b)
  have key2 : ∀ (r : List ℤ) (a x : ℤ), x ∈ r → r.foldl min a ≤ x := by
    intro r
    induction r with
    | nil => intro a x hx; simp at hx
    | cons b r' ih =>
      intro a x hx
      rcases List.mem_cons.mp hx with rfl | hx'
      · exact le_trans (by rw [List.foldl_cons]; exact key1 r' (min a x)) (min_le_right a x)
      · rw [List.foldl_cons]; exact ih (min a b) x hx'
  intro l x hx
  cases l with
  | nil => simp at hx
  | cons a r =>
    rcases List.mem_cons.mp hx with rfl | hx'
    · rw [minList]; exact key1 r x
    · rw [minList]; exact key2 r a x hx'

/-- Two nonempty integer lists with the same members have the same
maximum. -/
theorem maxList_congr (l₁ l₂ : List ℤ) (h : ∀ a, a ∈ l₁ ↔ a ∈ l₂)
    (h1 : l₁ ≠ []) (h2 : l₂ ≠ []) : maxList l₁ = maxList l₂ :=
  le_antisymm
    (le_maxList l₂ _ ((h _).mp (maxList_mem l₁ h1)))
    (le_maxList l₁ _ ((h _).mpr (maxList_mem l₂ h2)))

/-- Two nonempty integer lists with the same members have the same
minimum. -/
theorem minList_congr (l₁ l₂ : List ℤ) (h : ∀ a, a ∈ l₁ ↔ a ∈ l₂)
    (h1 : l₁ ≠ []) (h2 : l₂ ≠ []) : minList l₁ = minList l₂ :=
  le_antisymm
    (minList_le l₁ _ ((h _).mpr (minList_mem l₂ h2)))
    (minList_le l₂ _ ((h _).mp (minList_mem l₁ h1)))

/-- Shifting every element shifts the maximum. -/
theorem maxList_map_add_one :
    ∀ (l : List ℤ), l ≠ [] → maxList (l.map (fun a => a + 1)) = maxList l + 1 := by
  have key : ∀ (r : List ℤ) (a : ℤ),
      (r.map (fun a => a + 1)).foldl max (a + 1) = r.foldl max a + 1 := by
    intro r
    induction r with
    | nil => intro a; rfl
    | cons b r' ih =>
      intro a
      rw [List.map_cons, List.foldl_cons, List.foldl_cons, max_add_add_right, ih]
  intro l hl
  cases l with
  | nil => exact absurd rfl hl
  | cons a r =>
    rw [List.map_cons, maxList, maxList]
    exact key r a

/-- Unfolded form of the connectivity test: from every ink pixel, the
flood closure contains every ink pixel. -/
theorem connected4_spec (m : Mask) (h : Connected4 m = true) :
    ∀ p ∈ rowMajor m.w m.h, m.get p.1 p.2 = true →
      ∀ q ∈ rowMajor m.w m.h, m.get q.1 q.2 = true →
        q ∈ floodFrom (fun r => m.get r.1 r.2) (floodFuel m.w m.h) p := by
  unfold Connected4 at h
  rw [List.all_eq_true] at h
  intro p hp hgp q hq hgq
  have hh := h p hp
  rw [Bool.or_eq_true] at hh
  rcases hh with hfalse | hall
  · rw [Bool.not_eq_true'] at hfalse
    rw [hgp] at hfalse
    cases hfalse
  · rw [List.all_eq_true] at hall
    have hh2 := hall q hq
    rw [Bool.or_eq_true] at hh2
    rcases hh2 with hfalse | hmem
    · rw [Bool.not_eq_true'] at hfalse
      rw [hgq] at hfalse
      cases hfalse
    · exact of_decide_eq_true hmem

/-- On a nonempty 4-connected mask the component scan finds exactly one
region, whose points are exactly the ink pixels. -/
theorem components_single (m : Mask) (h1 : hasInk m = true) (h2 : Connected4 m = true) :
    ∃ pts : List Pt, components m = [pts] ∧ pts ≠ [] ∧
      ∀ q, q ∈ pts ↔ m.get q.1 q.2 = true := by
  obtain ⟨pre, p0, rest, heq, hpre, hp0⟩ :=
    firstSplit (fun p => m.get p.1 p.2) (rowMajor m.w m.h) h1
  set F := floodFrom (fun r => m.get r.1 r.2) (floodFuel m.w m.h) p0 with hF
  have hp0row : p0 ∈ rowMajor m.w m.h := by
    rw [heq]
    exact List.mem_append.mpr (Or.inr (List.mem_cons_self p0 rest))
  have hsound : ∀ q ∈ F, m.get q.1 q.2 = true := by
    intro q hq
    exact flood_sound (fun r => m.get r.1 r.2) (floodFuel m.w m.h) [p0] [] (by simp) q hq
  have hcover : ∀ q, m.get q.1 q.2 = true → q ∈ F := by
    intro q hq
    have hqrow : q ∈ rowMajor m.w m.h := by
      rw [mem_rowMajor]
      exact get_true_bounds m q.1 q.2 hq
    exact connected4_spec m h2 p0 hp0row hp0 q hqrow hq
  refine ⟨F, ?_, ?_, fun q => ⟨hsound q, hcover q⟩⟩
  · unfold components
    rw [heq, compsAux_pre _ _ pre _ [] hpre, componentsAux]
    rw [show ((fun p => m.get p.1 p.2) p0 && !memAny p0 []) = true by simp [hp0, memAny]]
    rw [if_pos rfl, List.nil_append]
    refine compsAux_skip _ _ rest [F] ?_
    intro q hq hgq
    have : q ∈ F := hcover q hgq
    simp [memAny, this]
  · intro hFnil
    have := floodFrom_self_mem (fun r => m.get r.1 r.2) m.w m.h p0 hp0
    rw [← hF, hFnil] at this
    cases this

/-- Lists with the same members have mapped lists with the same members. -/
theorem mem_map_congr {α β : Type} (f : α → β) (l₁ l₂ : List α)
    (h : ∀ x, x ∈ l₁ ↔ x ∈ l₂) : ∀ a, a ∈ l₁.map f ↔ a ∈ l₂.map f := by
  intro a
  simp only [List.mem_map]
  constructor
  · rintro ⟨x, hx, rfl⟩; exact ⟨x, (h x).mp hx, rfl⟩
  · rintro ⟨x, hx, rfl⟩; exact ⟨x, (h x).mpr hx, rfl⟩

/-- The right edge of the bounding rectangle of a nonempty region is one
more than the maximal x coordinate. -/
theorem rectOf_right (p : Pt) (rest : List Pt) :
    (rectOf (p :: rest)).right = maxList ((p :: rest).map Prod.fst) + 1 := by
  simp only [rectOf, maxList, List.map_cons, List.foldl_map]

/-- The top edge of the bounding rectangle of a nonempty region is the
minimal y coordinate. -/
theorem rectOf_top (p : Pt) (rest : List Pt) :
    (rectOf (p :: rest)).top = minList ((p :: rest).map Prod.snd) := by
  simp only [rectOf, minList, List.map_cons, List.foldl_map]

/-- C3 (amended): for every mask with nonempty 4-connected ink, the
extent returned by `vectorize` is `(max corner X, minimum corner Y)` over
the traced region — the second coordinate is the top edge of the ink's
bounding rectangle (its minimal y), not the maximum corner Y the claim
stated. -/
theorem C3_extent_amended (m : Mask) (scale : ℚ) (off : ℚ × ℚ) (it : Bool)
    (h1 : hasInk m = true) (h2 : Connected4 m = true) :
    (vectorize m scale off it).2 = (maxCornerX m, minCornerY m) := by
  obtain ⟨pts, hcomp, hne, hmem⟩ := components_single m h1 h2
  have hsep : (separate_regions m).1 = [Mask.ofPoints m.w m.h pts] := by
    unfold separate_regions
    rw [hcomp]
    rfl
  have hrects : get_bounding_rects m = [rectOf pts] := by
    unfold get_bounding_rects
    rw [hcomp]
    rfl
  have hmm : ∀ a, a ∈ inkPts m ↔ a ∈ pts :=
    fun a => (mem_inkPts m a).trans (hmem a).symm
  have hinknil : inkPts m ≠ [] := by
    intro hnil
    cases pts with
    | nil => exact hne rfl
    | cons p r =>
      have : p ∈ inkPts m := (hmm p).mpr (List.mem_cons_self p r)
      rw [hnil] at this
      cases this
  simp only [vectorize]
  rw [hsep]
  simp only [List.isEmpty_cons, Bool.false_eq_true, if_false, hrects, List.map_cons,
    List.map_nil]
  cases pts with
  | nil => exact absurd rfl hne
  | cons p rest =>
    have hright : (rectOf (p :: rest)).right = maxCornerX m := by
      rw [rectOf_right]
      unfold maxCornerX
      have e1 : (inkPts m).map (fun q => q.1 + 1) =
          ((inkPts m).map Prod.fst).map (fun a => a + 1) := by
        rw [List.map_map]
        rfl
      rw [e1, maxList_map_add_one _ (by simp [hinknil])]
      rw [maxList_congr ((inkPts m).map Prod.fst) ((p :: rest).map Prod.fst)
        (mem_map_congr Prod.fst _ _ hmm) (by simp [hinknil]) (by simp)]
    have htop : (rectOf (p :: rest)).top = minCornerY m := by
      rw [rectOf_top]
      unfold minCornerY
      rw [minList_congr ((inkPts m).map Prod.snd) ((p :: rest).map Prod.snd)
        (mem_map_congr Prod.snd _ _ hmm) (by simp [hinknil]) (by simp)]
    rw [show maxList [(rectOf (p :: rest)).right] = (rectOf (p :: rest)).right from rfl,
      show maxList [(rectOf (p :: rest)).top] = (rectOf (p :: rest)).top from rfl,
      hright, htop]

/-- C3 (amended) witness: on the 1×2 domino the extent is
`(max corner X, min corner Y) = (1, 0)`. -/
theorem C3_extent_amended_witness :
    hasInk dominoMask = true ∧ Connected4 dominoMask = true ∧
      (vectorize dominoMask 1 (0, 0) false).2 =
        (maxCornerX dominoMask, minCornerY dominoMask) :=
  ⟨by decide, by decide,
   C3_extent_amended dominoMask 1 (0, 0) false (by decide) (by decide)⟩

/-- From an invariant arrival state the tracer always finds a branch: it
moves to the adjacent corner in its new facing direction, and the arrival
invariant holds again after the step. -/
theorem stepFacts (m : Mask) (s : (ℤ × ℤ) × Dir) (h : traceInvB m s = true) :
    traceInvB m (stepState m s) = true ∧
      (stepState m s).1 = (s.1.1 + (dirVec (stepState m s).2).1,
        s.1.2 + (dirVec (stepState m s).2).2) := by
  obtain ⟨⟨x, y⟩, f⟩ := s
  cases f with
  | right =>
    simp only [traceInvB, Bool.and_eq_true, Bool.not_eq_true'] at h
    obtain ⟨hbl, htl⟩ := h
    cases htr : m.get x (y - 1) <;> cases hbr : m.get x y <;>
      simp [stepState, traceStep, traceInvB, dirVec, htl, htr, hbl, hbr] <;> omega
  | left =>
    simp only [traceInvB, Bool.and_eq_true, Bool.not_eq_true'] at h
    obtain ⟨htr, hbr⟩ := h
    cases htl : m.get (x - 1) (y - 1) <;> cases hbl : m.get (x - 1) y <;>
      simp [stepState, traceStep, traceInvB, dirVec, htl, htr, hbl, hbr] <;> omega
  | up =>
    simp only [traceInvB, Bool.and_eq_true, Bool.not_eq_true'] at h
    obtain ⟨hbr, hbl⟩ := h
    cases htl : m.get (x - 1) (y - 1) <;> cases htr : m.get x (y - 1) <;>
      simp [stepState, traceStep, traceInvB, dirVec, htl, htr, hbl, hbr] <;> omega
  | down =>
    simp only [traceInvB, Bool.and_eq_true, Bool.not_eq_true'] at h
    obtain ⟨htl, htr⟩ := h
    cases hbl : m.get (x - 1) y <;> cases hbr : m.get x y <;>
      simp [stepState, traceStep, traceInvB, dirVec, htl, htr, hbl, hbr] <;> omega

/-- An out-of-range pixel read returns background. -/
theorem get_oob (m : Mask) (x y : ℤ)
    (h : ¬(0 ≤ x ∧ x < (m.w : ℤ) ∧ 0 ≤ y ∧ y < (m.h : ℤ))) : m.get x y = false := by
  unfold Mask.get
  rw [decide_eq_false h, Bool.false_and]

/-- If the loop search fails, the predicate is false below the bound. -/
theorem findFirst_none (p : ℕ → Bool) :
    ∀ (n : ℕ), findFirst p n = none → ∀ j < n, p j = false := by
  intro n
  induction n with
  | zero => intro _ j hj; exact absurd hj (by omega)
  | succ n ih =>
    intro h j hj
    simp only [findFirst] at h
    cases hf : findFirst p n with
    | some i => rw [hf] at h; exact absurd h (by simp)
    | none =>
      rw [hf] at h
      by_cases hp : p n = true
      · rw [if_pos hp] at h; exact absurd h (by simp)
      · rcases Nat.lt_succ_iff_lt_or_eq.mp hj with h2 | h2
        · exact ih hf j h2
        · subst h2; exact Bool.eq_false_iff.mpr hp

/-- If the loop search succeeds it returns the least index satisfying the
predicate. -/
theorem findFirst_some (p : ℕ → Bool) :
    ∀ (n i : ℕ), findFirst p n = some i → p i = true ∧ ∀ j < i, p j = false := by
  intro n
  induction n with
  | zero => intro i h; exact absurd h (by simp [findFirst])
  | succ n ih =>
    intro i h
    simp only [findFirst] at h
    cases hf : findFirst p n with
    | some k =>
      rw [hf] at h
      have hik : k = i := by injection h
      subst hik
      exact ih k hf
    | none =>
      rw [hf] at h
      by_cases hp : p n = true
      · rw [if_pos hp] at h
        have hni : n = i := by injection h
        subst hni
        exact ⟨hp, findFirst_none p n hf⟩
      · rw [if_neg hp] at h; exact absurd h (by simp)

/-- The loop search succeeds whenever some index below the bound
satisfies the predicate. -/
theorem findFirst_isSome_of (p : ℕ → Bool) (n i : ℕ) (hi : i < n)
    (hp : p i = true) : (findFirst p n).isSome = true := by
  cases hf : findFirst p n with
  | none => exact absurd hp (by simp [findFirst_none p n hf i hi])
  | some k => rfl

/-- A row with no ink reads as background at every abscissa. -/
theorem row_all_false (m : Mask) (y : ℕ) (h : rowHasInk m y = false) (x : ℤ) :
    m.get x ((y : ℕ) : ℤ) = false := by
  by_cases hb : 0 ≤ x ∧ x < (m.w : ℤ)
  · have hnone : findFirst (fun x => m.get (x : ℤ) (y : ℤ)) m.w = none := by
      unfold rowHasInk at h
      cases hf : findFirst (fun x => m.get (x : ℤ) (y : ℤ)) m.w with
      | none => rfl
      | some k => rw [hf] at h; exact absurd h (by simp)
    have e : x = ((x.toNat : ℕ) : ℤ) := by omega
    rw [e]
    exact findFirst_none _ _ hnone x.toNat (by omega)
  · exact get_oob m _ _ (by omega)

/-- What `findStart` guarantees: the start pixel is ink, and its three
row-major predecessors in the 2×2 corner neighborhood (left, above,
above-left) are background. -/
theorem findStart_facts (m : Mask) (st : Pt) (h : findStart m = some st) :
    m.get st.1 st.2 = true ∧ m.get (st.1 - 1) st.2 = false ∧
      m.get st.1 (st.2 - 1) = false ∧ m.get (st.1 - 1) (st.2 - 1) = false := by
  unfold findStart at h
  cases hy : findFirst (rowHasInk m) m.h with
  | none => rw [hy] at h; exact absurd h (by simp)
  | some y =>
    simp only [hy] at h
    cases hx : findFirst (fun x => m.get (x : ℤ) (y : ℤ)) m.w with
    | none => simp only [hx] at h; exact absurd h (by simp)
    | some x =>
      simp only [hx] at h
      have hst : ((x : ℤ), (y : ℤ)) = st := by injection h
      obtain ⟨hpx, hminx⟩ := findFirst_some _ _ _ hx
      obtain ⟨_, hminy⟩ := findFirst_some _ _ _ hy
      rw [← hst]
      refine ⟨hpx, ?_, ?_, ?_⟩
      · rcases Nat.eq_zero_or_pos x with h0 | h0
        · subst h0
          apply get_oob
          dsimp only
          push_cast
          simp
        · have e : ((x : ℕ) : ℤ) - 1 = ((x - 1 : ℕ) : ℤ) := by push_cast; omega
          rw [show (((x : ℤ), (y : ℤ)) : Pt).1 - 1 = (x : ℤ) - 1 from rfl, e]
          exact hminx (x - 1) (by omega)
      · rcases Nat.eq_zero_or_pos y with h0 | h0
        · subst h0
          apply get_oob
          dsimp only
          push_cast
          simp
        · have e : ((y : ℕ) : ℤ) - 1 = ((y - 1 : ℕ) : ℤ) := by push_cast; omega
          rw [show (((x : ℤ), (y : ℤ)) : Pt).2 - 1 = (y : ℤ) - 1 from rfl, e]
          exact row_all_false m (y - 1) (hminy (y - 1) (by omega)) _
      · rcases Nat.eq_zero_or_pos y with h0 | h0
        · subst h0
          apply get_oob
          dsimp only
          push_cast
          simp
        · have e : ((y : ℕ) : ℤ) - 1 = ((y - 1 : ℕ) : ℤ) := by push_cast; omega
          rw [show (((x : ℤ), (y : ℤ)) : Pt).2 - 1 = (y : ℤ) - 1 from rfl, e]
          exact row_all_false m (y - 1) (hminy (y - 1) (by omega)) _

/-- A mask with ink has a start pixel. -/
theorem hasInk_findStart (m : Mask) (h : hasInk m = true) :
    ∃ st, findStart m = some st := by
  unfold hasInk at h
  rw [List.any_eq_true] at h
  obtain ⟨p, hmem, hget⟩ := h
  obtain ⟨h1, h2, h3, h4⟩ := (mem_rowMajor m.w m.h p).mp hmem
  have hrow : rowHasInk m p.2.toNat = true := by
    unfold rowHasInk
    apply findFirst_isSome_of _ _ p.1.toNat (by omega)
    have e1 : ((p.1.toNat : ℕ) : ℤ) = p.1 := by omega
    have e2 : ((p.2.toNat : ℕ) : ℤ) = p.2 := by omega
    simp only [e1, e2]
    exact hget
  have hy : (findFirst (rowHasInk m) m.h).isSome = true :=
    findFirst_isSome_of _ _ p.2.toNat (by omega) hrow
  unfold findStart
  cases hyy : findFirst (rowHasInk m) m.h with
  | none => rw [hyy] at hy; exact absurd hy (by simp)
  | some y =>
    have hrowy : rowHasInk m y = true := (findFirst_some _ _ _ hyy).1
    unfold rowHasInk at hrowy
    simp only [hyy]
    cases hxx : findFirst (fun x => m.get (x : ℤ) (y : ℤ)) m.w with
    | none => rw [hxx] at hrowy; exact absurd hrowy (by simp)
    | some x => simp only [hxx]; exact ⟨_, rfl⟩

/-- The first step out of the start corner: the tracer moves right to the
corner `(start.x + 1, start.y)`, and the arrival invariant holds there. -/
theorem start_step (m : Mask) (st : Pt) (h : findStart m = some st) :
    stepState m (st, Dir.right) = ((st.1 + 1, st.2), Dir.right) ∧
      traceInvB m ((st.1 + 1, st.2), Dir.right) = true := by
  obtain ⟨hbr, hbl, htr, htl⟩ := findStart_facts m st h
  constructor
  · simp [stepState, traceStep, htl, htr, hbl, hbr]
  · simp [traceInvB, show st.1 + 1 - 1 = st.1 from by ring, hbr, htr]

/-- The tracer step is injective on invariant states: positions are
recovered from the move equation, and two distinct facings compatible
with the invariant at the same corner (a checkerboard corner) step to
distinct corners. -/
theorem step_inj (m : Mask) (s s' : (ℤ × ℤ) × Dir)
    (h : traceInvB m s = true) (h' : traceInvB m s' = true)
    (he : stepState m s = stepState m s') : s = s' := by
  have hm := (stepFacts m s h).2
  have hm' := (stepFacts m s' h').2
  rw [he] at hm
  have hpq := hm'.symm.trans hm
  rw [Prod.mk.injEq] at hpq
  obtain ⟨⟨x, y⟩, f⟩ := s
  obtain ⟨⟨x', y'⟩, f'⟩ := s'
  dsimp only at hpq
  have hx : x = x' := by omega
  have hy : y = y' := by omega
  subst hx
  subst hy
  clear hm hm' hpq
  cases f <;> cases f' <;>
    first
      | rfl
      | (simp only [traceInvB, Bool.and_eq_true, Bool.not_eq_true'] at h h'
         simp_all [stepState, traceStep])

/-- The arrival invariant persists along the whole orbit of the step map. -/
theorem invIter (m : Mask) (s : (ℤ × ℤ) × Dir) (hs : traceInvB m s = true) :
    ∀ n : ℕ, traceInvB m ((stepState m)^[n] s) = true := by
  intro n
  induction n with
  | zero => exact hs
  | succ k ih =>
    rw [Function.iterate_succ_apply']
    exact (stepFacts m _ ih).1

/-- Every invariant state lies in the finite state box. -/
theorem inv_mem_box (m : Mask) (s : (ℤ × ℤ) × Dir) (h : traceInvB m s = true) :
    s ∈ stateBox m := by
  obtain ⟨⟨x, y⟩, f⟩ := s
  have hbox : 0 ≤ x ∧ x ≤ (m.w : ℤ) ∧ 0 ≤ y ∧ y ≤ (m.h : ℤ) := by
    cases f <;>
      · simp only [traceInvB, Bool.and_eq_true, Bool.not_eq_true'] at h
        obtain ⟨h1, _⟩ := h
        have := get_true_bounds m _ _ h1
        omega
  refine Finset.mem_product.mpr ⟨Finset.mem_product.mpr ⟨?_, ?_⟩, ?_⟩
  · exact Finset.mem_Icc.mpr ⟨hbox.1, hbox.2.1⟩
  · exact Finset.mem_Icc.mpr ⟨hbox.2.2.1, hbox.2.2.2⟩
  · cases f <;> simp

/-- The size of the state box. -/
theorem stateBox_card (m : Mask) :
    (stateBox m).card = (m.w + 1) * (m.h + 1) * 4 := by
  rw [stateBox, Finset.card_product, Finset.card_product, Int.card_Icc, Int.card_Icc]
  rw [show (({Dir.up, Dir.down, Dir.left, Dir.right} : Finset Dir)).card = 4 from rfl]
  rw [show ((m.w : ℤ) + 1 - 0).toNat = m.w + 1 from by omega,
    show ((m.h : ℤ) + 1 - 0).toNat = m.h + 1 from by omega]

/-- Cancellation along an orbit of invariant states: two equal iterates
yield a return to the starting state after the difference of the
exponents. -/
theorem iterate_cancel (m : Mask) (s : (ℤ × ℤ) × Dir) (hs : traceInvB m s = true) :
    ∀ (i j : ℕ), i ≤ j → (stepState m)^[i] s = (stepState m)^[j] s →
      (stepState m)^[j - i] s = s := by
  intro i
  induction i generalizing s with
  | zero =>
    intro j _ hij
    rw [Nat.sub_zero, ← hij, Function.iterate_zero_apply]
  | succ k ih =>
    intro j hle hij
    have hj : j = (j - 1) + 1 := by omega
    rw [hj, Function.iterate_succ_apply', Function.iterate_succ_apply'] at hij
    have hk : (stepState m)^[k] s = (stepState m)^[j - 1] s :=
      step_inj m _ _ (invIter m s hs k) (invIter m s hs (j - 1)) hij
    have := ih s hs (j - 1) (by omega) hk
    rw [show j - (k + 1) = (j - 1) - k from by omega]
    exact this

/-- Pigeonhole on the finite state box: the orbit of an invariant state
returns to it within `card (stateBox)` steps. -/
theorem orbit_return (m : Mask) (s : (ℤ × ℤ) × Dir) (hs : traceInvB m s = true) :
    ∃ p, 1 ≤ p ∧ p ≤ (stateBox m).card ∧ (stepState m)^[p] s = s := by
  have hmap : ∀ n ∈ Finset.range ((stateBox m).card + 1),
      (stepState m)^[n] s ∈ stateBox m :=
    fun n _ => inv_mem_box m _ (invIter m s hs n)
  have hcard : (stateBox m).card < (Finset.range ((stateBox m).card + 1)).card := by
    simp
  obtain ⟨i, hi, j, hj, hne, heq⟩ :=
    Finset.exists_ne_map_eq_of_card_lt_of_maps_to hcard hmap
  rw [Finset.mem_range] at hi hj
  rcases lt_or_gt_of_ne hne with hlt | hlt
  · exact ⟨j - i, by omega, by omega,
      iterate_cancel m s hs i j (le_of_lt hlt) heq⟩
  · exact ⟨i - j, by omega, by omega,
      iterate_cancel m s hs j i (le_of_lt hlt) heq.symm⟩

/-- From the start corner (facing right) the tracer's orbit reaches a
state whose position is the start corner again, within `traceFuel` steps. -/
theorem returns_to_start (m : Mask) (st : Pt) (hfs : findStart m = some st) :
    ∃ n, 1 ≤ n ∧ n ≤ traceFuel m ∧
      ((stepState m)^[n] (st, Dir.right)).1 = st := by
  obtain ⟨hstep, hinv⟩ := start_step m st hfs
  obtain ⟨p, hp1, hpN, hper⟩ := orbit_return m ((st.1 + 1, st.2), Dir.right) hinv
  have hstep1 : stepState m ((stepState m)^[p - 1] ((st.1 + 1, st.2), Dir.right)) =
      ((st.1 + 1, st.2), Dir.right) := by
    have h1 : (stepState m)^[p - 1 + 1] ((st.1 + 1, st.2), Dir.right) =
        ((st.1 + 1, st.2), Dir.right) := by
      rw [show p - 1 + 1 = p from by omega]
      exact hper
    rw [Function.iterate_succ_apply'] at h1
    exact h1
  have hinvu : traceInvB m ((stepState m)^[p - 1] ((st.1 + 1, st.2), Dir.right)) = true :=
    invIter m _ hinv (p - 1)
  have hmv := (stepFacts m _ hinvu).2
  rw [hstep1] at hmv
  have hupos : ((stepState m)^[p - 1] ((st.1 + 1, st.2), Dir.right)).1 = st := by
    simp only [dirVec] at hmv
    rw [Prod.ext_iff]
    rw [Prod.mk.injEq] at hmv
    constructor
    · omega
    · omega
  refine ⟨p, hp1, ?_, ?_⟩
  · have h1 := stateBox_card m
    have h2 : 4 * (m.w + 1) * (m.h + 1) = (m.w + 1) * (m.h + 1) * 4 := by ring
    unfold traceFuel
    omega
  · have hiter : (stepState m)^[p] (st, Dir.right) =
        (stepState m)^[p - 1] ((st.1 + 1, st.2), Dir.right) := by
      conv_lhs => rw [show p = (p - 1) + 1 from by omega]
      rw [Function.iterate_succ_apply, hstep]
    rw [hiter]
    exact hupos

/-- `getLast?` skips the head of a list with a nonempty tail. -/
theorem getLast_cons_ne {α : Type} (a : α) (l : List α) (h : l ≠ []) :
    (a :: l).getLast? = l.getLast? := by
  cases l with
  | nil => exact absurd rfl h
  | cons b t => rfl

/-- If some iterate of the tracer step within the fuel bound reaches the
target corner, the traced tail is nonempty and ends at the target. -/
theorem traceAux_closes (m : Mask) (tgt : Pt) :
    ∀ (fuel : ℕ) (s : Pt × Dir),
      (∃ n, 1 ≤ n ∧ n ≤ fuel ∧ ((stepState m)^[n] s).1 = tgt) →
      traceAux m tgt fuel s.1 s.2 ≠ [] ∧
        (traceAux m tgt fuel s.1 s.2).getLast? = some tgt := by
  intro fuel
  induction fuel with
  | zero =>
    intro s hex
    obtain ⟨n, h1, h2, _⟩ := hex
    omega
  | succ f ih =>
    intro s hex
    by_cases hc : (stepState m s).1 = tgt
    · simp only [stepState] at hc
      refine ⟨?_, ?_⟩ <;> simp [traceAux, hc]
    · have hex' : ∃ n, 1 ≤ n ∧ n ≤ f ∧
          ((stepState m)^[n] (stepState m s)).1 = tgt := by
        obtain ⟨n, h1, h2, h3⟩ := hex
        cases n with
        | zero => omega
        | succ k =>
          have h3' : ((stepState m)^[k] (stepState m s)).1 = tgt := by
            rw [← Function.iterate_succ_apply]
            exact h3
          refine ⟨k, ?_, by omega, h3'⟩
          rcases Nat.eq_zero_or_pos k with h0 | h0
          · subst h0
            rw [Function.iterate_zero_apply] at h3'
            exact absurd h3' hc
          · exact h0
      obtain ⟨hne, hlast⟩ := ih (stepState m s) hex'
      have hunf : traceAux m tgt (f + 1) s.1 s.2 =
          (stepState m s).1 :: traceAux m tgt f (stepState m s).1 (stepState m s).2 := by
        simp only [stepState] at hc ⊢
        simp [traceAux, hc]
      refine ⟨?_, ?_⟩
      · rw [hunf]
        exact List.cons_ne_nil _ _
      · rw [hunf, getLast_cons_ne _ _ hne]
        exact hlast

/-- C7: on every mask holding a non-empty 4-connected ink region the
contour trace terminates; its first element is the corner of the first
ink pixel in row-major scan order (the start returned by the scan), its
last element equals that start corner, and the trace is a proper closed
loop (length at least 2). -/
theorem C7_trace_closes (m : Mask) (h1 : hasInk m = true)
    (h2 : Connected4 m = true) :
    ∃ st, findStart m = some st ∧
      (trace_outline m).head? = some st ∧
      (trace_outline m).getLast? = some st ∧
      2 ≤ (trace_outline m).length := by
  obtain ⟨st, hfs⟩ := hasInk_findStart m h1
  have hret := returns_to_start m st hfs
  have hcl := traceAux_closes m st (traceFuel m) (st, Dir.right) hret
  have hto : trace_outline m = st :: traceAux m st (traceFuel m) st Dir.right := by
    unfold trace_outline
    simp only [hfs]
  refine ⟨st, hfs, ?_, ?_, ?_⟩
  · rw [hto]
    rfl
  · rw [hto, getLast_cons_ne _ _ hcl.1]
    exact hcl.2
  · rw [hto]
    simp only [List.length_cons]
    have hp : 0 < (traceAux m st (traceFuel m) st Dir.right).length :=
      List.length_pos.mpr hcl.1
    omega

/-- C7 witness: the single-pixel mask is non-empty and 4-connected, and
its trace is closed. -/
theorem C7_trace_closes_witness :
    hasInk pxMask = true ∧ Connected4 pxMask = true ∧
      ∃ st, findStart pxMask = some st ∧
        (trace_outline pxMask).head? = some st ∧
        (trace_outline pxMask).getLast? = some st ∧
        2 ≤ (trace_outline pxMask).length :=
  ⟨by decide, by decide, C7_trace_closes pxMask (by decide) (by decide)⟩
